import Mathlib

/-!
Shallow embedding of the `vector` package (a 2-D vector graphics
rasterizer, `vector.go`) together with proofs about its path builder,
its compositing paths and its `Draw` dispatch.

Modelling conventions:
* `float32` / `float64` coordinate and coverage arithmetic is idealised
  as exact rational arithmetic (`ℚ`); the float literal `0.333` is read
  as `333/1000`, and `math.Sqrt (math.Sqrt x)` followed by Go's
  truncating `int(...)` conversion is the floor of the fourth root,
  realised by the executable `natSqrt` below.
* Go slices are modelled as total functions `ℕ → _` together with an
  explicit logical length (`lenF32`) and capacity (`capF32`) where the
  code manipulates them; `uint32` / `uint16` / `uint8` values are `ℕ`
  with explicit `% 0x10000` / `% 0x100` where the code truncates. The
  channel values handled by the compositing loops stay below `2 ^ 32`
  for every colour satisfying the `image/color` contract (premultiplied
  channels, at most `0xffff`), so plain `ℕ` arithmetic agrees with Go's
  `uint32` arithmetic there.
* The source image passed to `Draw` is either a uniform colour
  (`image.Uniform`, recognised by the fast-path type switch) or an
  arbitrary image given by its `At` function returning 16-bit RGBA
  channels; the destination is either an `*image.Alpha` (bounds plus a
  byte buffer, with stride equal to the bounds' width as produced by
  `image.NewAlpha`) or a generic `draw.Image` that stores 16-bit RGBA
  pixels exactly.
-/

/-- Planar vector, the embedding of `f32.Vec2` (`[0]` is `x`, `[1]` is `y`). -/
structure Vec2 where
  x : ℚ
  y : ℚ
deriving DecidableEq

/-- Linear interpolation between two points, from `lerp` in `vector.go`. -/
def lerp (t : ℚ) (p q : Vec2) : Vec2 :=
  ⟨p.x + t * (q.x - p.x), p.y + t * (q.y - p.y)⟩

/-- Curviness measure of the sequence `a`, `b`, `c`, from `devSquared` in
`vector.go`: the squared length of the vector `a - 2b + c`. -/
def devSquared (a b c : Vec2) : ℚ :=
  (a.x - 2 * b.x + c.x) * (a.x - 2 * b.x + c.x) +
    (a.y - 2 * b.y + c.y) * (a.y - 2 * b.y + c.y)

/-- Largest `k ≤ fuel` with `k * k ≤ m` (and `0` if there is none). -/
def natSqrtBelow (m : ℕ) : ℕ → ℕ
  | 0 => 0
  | f + 1 => if (f + 1) * (f + 1) ≤ m then f + 1 else natSqrtBelow m f

/-- Executable integer square root: the largest `k` with `k * k ≤ m`. -/
def natSqrt (m : ℕ) : ℕ := natSqrtBelow m m

/-- Floor of the fourth root of a nonnegative rational, by two integer
square roots of the floor. -/
def floorFourthRoot (q : ℚ) : ℕ := natSqrt (natSqrt q.floor.toNat)

/-- Subdivision count used by `QuadTo` and `CubeTo` in `vector.go`:
`n := 1 + int(math.Sqrt(math.Sqrt(tol*float64(devsq))))` with `tol = 3`,
where Go's `int(...)` conversion truncates (floor, for nonnegative
arguments). -/
def subdivCount (devsq : ℚ) : ℕ := 1 + floorFourthRoot (3 * devsq)

/-- Draw operator (`draw.Op` from the standard library): `over` is
`draw.Over`, `src` is `draw.Src`. The zero value is `over`. -/
inductive Op where
  | over
  | src
deriving DecidableEq

/-- State of `vector.Rasterizer`. The buffers of the Go struct are
modelled as total functions with explicit logical length and capacity:
`bufF32` holds the signed per-cell coverage areas, `bufU32` the
integrated mask recomputed by `Draw`. -/
structure Rasterizer where
  bufF32 : ℕ → ℚ
  lenF32 : ℕ
  capF32 : ℕ
  bufU32 : ℕ → ℕ
  sizeX : ℕ
  sizeY : ℕ
  first : Vec2
  pen : Vec2
  DrawOp : Op

/-- Clamp a rational to an interval. -/
def clampQ (v lo hi : ℚ) : ℚ := max lo (min v hi)

/-- Integral over `t ∈ [0, d]` of `clamp (L t) 0 1`, where `L` is the
linear function with `L 0 = la` and `L d = lb`; used for the exact
per-cell trapezoid areas of the accumulation step. -/
def clampedStripArea (d la lb : ℚ) : ℚ :=
  let a := min la lb
  let b := max la lb
  if b ≤ 0 then 0
  else if 1 ≤ a then d
  else if a = b then d * clampQ a 0 1
  else
    let t0 := clampQ (d * (0 - a) / (b - a)) 0 d
    let t1 := clampQ (d * (1 - a) / (b - a)) 0 d
    let l0 := clampQ (a + (b - a) * t0 / d) 0 1
    let l1 := clampQ (a + (b - a) * t1 / d) 0 1
    (t1 - t0) * (l0 + l1) / 2 + (d - t1)

/-- Modelled from the spec: the per-cell signed-area contribution of one
line segment, the heart of `floatingLineTo` (file `raster_floating.go`,
which is not part of the sources given here). Following §4.2 of the
spec: a horizontal or empty segment contributes nothing; otherwise, for
the pixel row `y`, the segment is clipped to the row's vertical slice,
and the cell `(x, y)` receives the signed area of the part of the cell
lying to the right of the clipped sub-segment (so that prefix-summing a
row left to right yields coverage), with horizontal extents outside the
buffer clamped to the buffer's edge columns. Upward-moving segments
(decreasing `y`, with `y` growing downwards) count negative. -/
def cellDelta (p q : Vec2) (x y : ℕ) : ℚ :=
  if p.y = q.y then 0
  else
    let ytop : ℚ := max (min p.y q.y) (y : ℚ)
    let ybot : ℚ := min (max p.y q.y) ((y : ℚ) + 1)
    if ybot ≤ ytop then 0
    else
      let xt := p.x + (ytop - p.y) * (q.x - p.x) / (q.y - p.y)
      let xb := p.x + (ybot - p.y) * (q.x - p.x) / (q.y - p.y)
      let sign : ℚ := if p.y < q.y then 1 else -1
      sign * clampedStripArea (ybot - ytop) (((x : ℚ) + 1) - xt) (((x : ℚ) + 1) - xb)

/-- Modelled from the spec: `floatingLineTo`'s effect on the coverage
buffer (file `raster_floating.go`, not among the sources given here):
every cell of the `w × h` buffer accumulates the signed area contributed
by the segment from `p` to `q`; cells outside the buffer do not exist
and nothing outside the logical buffer is written. -/
def accumLine (w h : ℕ) (p q : Vec2) (buf : ℕ → ℚ) : ℕ → ℚ :=
  fun i => if i < w * h then buf i + cellDelta p q (i % w) (i / w) else buf i

/-- Embedding of `Rasterizer.LineTo`: accumulate the segment from the pen
to `b`, then move the pen to `b`. -/
def Rasterizer.LineTo (z : Rasterizer) (b : Vec2) : Rasterizer :=
  { z with bufF32 := accumLine z.sizeX z.sizeY z.pen b z.bufF32, pen := b }

/-- Embedding of `Rasterizer.MoveTo`: start a new path at `a`. -/
def Rasterizer.MoveTo (z : Rasterizer) (a : Vec2) : Rasterizer :=
  { z with first := a, pen := a }

/-- Embedding of `Rasterizer.ClosePath`: a line back to the path start. -/
def Rasterizer.ClosePath (z : Rasterizer) : Rasterizer :=
  z.LineTo z.first

/-- Embedding of `Rasterizer.Pen`. -/
def Rasterizer.Pen (z : Rasterizer) : Vec2 := z.pen

/-- Interior points emitted by the subdivision loop of `QuadTo`: `k`
iterations, each advancing `t` by `nInv` and emitting the two-level
de Casteljau point at `t`. -/
def quadLoopPoints (a b c : Vec2) (nInv : ℚ) : ℕ → ℚ → List Vec2
  | 0, _ => []
  | k + 1, t =>
      let t' := t + nInv
      let ab := lerp t' a b
      let bc := lerp t' b c
      lerp t' ab bc :: quadLoopPoints a b c nInv k t'

/-- The `LineTo` targets emitted by `QuadTo` starting with its pen at
`a`: the interior subdivision points (when the squared deviation reaches
the `0.333` tolerance) followed by the end point `c`. -/
def quadPoints (a b c : Vec2) : List Vec2 :=
  let devsq := devSquared a b c
  (if 333 / 1000 ≤ devsq then
      let n := subdivCount devsq
      quadLoopPoints a b c (1 / (n : ℚ)) (n - 1) 0
    else []) ++ [c]

/-- Embedding of `Rasterizer.QuadTo`: one `LineTo` per emitted point. -/
def Rasterizer.QuadTo (z : Rasterizer) (b c : Vec2) : Rasterizer :=
  (quadPoints z.pen b c).foldl Rasterizer.LineTo z

/-- Interior points emitted by the subdivision loop of `CubeTo`: `k`
iterations, each advancing `t` by `nInv` and emitting the three-level
de Casteljau point at `t`. -/
def cubeLoopPoints (a b c d : Vec2) (nInv : ℚ) : ℕ → ℚ → List Vec2
  | 0, _ => []
  | k + 1, t =>
      let t' := t + nInv
      let ab := lerp t' a b
      let bc := lerp t' b c
      let cd := lerp t' c d
      let abc := lerp t' ab bc
      let bcd := lerp t' bc cd
      lerp t' abc bcd :: cubeLoopPoints a b c d nInv k t'

/-- The `LineTo` targets emitted by `CubeTo` starting with its pen at
`a`: the deviation is the larger of the deviations through either
control point, and the loop mirrors `quadPoints` with three-level
interpolation. -/
def cubePoints (a b c d : Vec2) : List Vec2 :=
  let devsq := max (devSquared a b d) (devSquared a c d)
  (if 333 / 1000 ≤ devsq then
      let n := subdivCount devsq
      cubeLoopPoints a b c d (1 / (n : ℚ)) (n - 1) 0
    else []) ++ [d]

/-- Embedding of `Rasterizer.CubeTo`: one `LineTo` per emitted point. -/
def Rasterizer.CubeTo (z : Rasterizer) (b c d : Vec2) : Rasterizer :=
  (cubePoints z.pen b c d).foldl Rasterizer.LineTo z

/-- Embedding of `Rasterizer.Reset`: if `w * h` exceeds the buffer's
capacity a fresh zero buffer is allocated, otherwise the buffer is
resliced to length `w * h` and its elements zeroed; the pen, the path
start and the draw operator return to their zero values. -/
def Rasterizer.Reset (z : Rasterizer) (w h : ℕ) : Rasterizer :=
  let n := w * h
  if z.capF32 < n then
    { bufF32 := fun _ => 0, lenF32 := n, capF32 := n, bufU32 := z.bufU32,
      sizeX := w, sizeY := h, first := ⟨0, 0⟩, pen := ⟨0, 0⟩, DrawOp := .over }
  else
    { z with bufF32 := fun i => if i < n then 0 else z.bufF32 i, lenF32 := n,
             sizeX := w, sizeY := h, first := ⟨0, 0⟩, pen := ⟨0, 0⟩, DrawOp := .over }

/-- Embedding of `NewRasterizer`. -/
def NewRasterizer (w h : ℕ) : Rasterizer :=
  { bufF32 := fun _ => 0, lenF32 := w * h, capF32 := w * h, bufU32 := fun _ => 0,
    sizeX := w, sizeY := h, first := ⟨0, 0⟩, pen := ⟨0, 0⟩, DrawOp := .over }

/-- Integer point (`image.Point`). -/
structure Point where
  x : ℤ
  y : ℤ
deriving DecidableEq

/-- Integer rectangle (`image.Rectangle`), min inclusive, max exclusive. -/
structure Rect where
  minX : ℤ
  minY : ℤ
  maxX : ℤ
  maxY : ℤ
deriving DecidableEq

/-- Membership of a point in a rectangle. -/
def inRect (r : Rect) (x y : ℤ) : Prop :=
  r.minX ≤ x ∧ x < r.maxX ∧ r.minY ≤ y ∧ y < r.maxY

instance (r : Rect) (x y : ℤ) : Decidable (inRect r x y) := by
  unfold inRect; infer_instance

/-- Embedding of `Rasterizer.Size`. -/
def Rasterizer.Size (z : Rasterizer) : Point := ⟨z.sizeX, z.sizeY⟩

/-- Embedding of `Rasterizer.Bounds`: the rectangle from the origin to
the rasterizer's size. -/
def Rasterizer.Bounds (z : Rasterizer) : Rect := ⟨0, 0, z.sizeX, z.sizeY⟩

/-- A 16-bit-per-channel alpha-premultiplied colour, as returned by the
`RGBA()` method of the `image/color` interface. -/
structure RGBA64c where
  r : ℕ
  g : ℕ
  b : ℕ
  a : ℕ
deriving DecidableEq

/-- Source image argument of `Draw`: either an `*image.Uniform` carrying
one colour (the case recognised by the fast-path type switch) or a
generic image given by its `At` function. -/
inductive Src where
  | uniform (c : RGBA64c)
  | img (f : ℤ → ℤ → RGBA64c)

/-- The `At(x, y).RGBA()` of a source image. A uniform image is infinite
in extent and returns its colour everywhere. -/
def Src.at : Src → ℤ → ℤ → RGBA64c
  | .uniform c, _, _ => c
  | .img f, x, y => f x y

/-- Destination image argument of `Draw`: either an `*image.Alpha`
(bounds plus byte buffer, row-major with stride equal to the bounds'
width) or a generic `draw.Image` storing 16-bit RGBA pixels exactly. -/
inductive Dst where
  | alpha (bo : Rect) (pix : ℕ → ℕ)
  | rgba64 (f : ℤ → ℤ → RGBA64c)

/-- Byte offset of an in-bounds pixel of an `*image.Alpha`. -/
def alphaOffset (bo : Rect) (x y : ℤ) : ℕ :=
  (y - bo.minY).toNat * (bo.maxX - bo.minX).toNat + (x - bo.minX).toNat

/-- The `At(x, y).RGBA()` of a destination: an alpha image stores one
byte `v` per in-bounds pixel and reports the colour
`(v*0x101, v*0x101, v*0x101, v*0x101)`, and the zero colour outside its
bounds. -/
def Dst.at : Dst → ℤ → ℤ → RGBA64c
  | .alpha bo pix, x, y =>
      if inRect bo x y then
        let v := pix (alphaOffset bo x y) % 0x100 * 0x101
        ⟨v, v, v, v⟩
      else ⟨0, 0, 0, 0⟩
  | .rgba64 f, x, y => f x y

/-- The `Set(x, y, c)` of a destination: an alpha image keeps
`uint8(c.A >> 8)` of an in-bounds pixel and ignores out-of-bounds
writes; the generic destination stores the 16-bit colour exactly. -/
def Dst.set : Dst → ℤ → ℤ → RGBA64c → Dst
  | .alpha bo pix, x, y, c =>
      if inRect bo x y then
        .alpha bo (fun i => if i = alphaOffset bo x y then c.a % 0x10000 / 0x100 else pix i)
      else .alpha bo pix
  | .rgba64 f, x, y, c =>
      .rgba64 (fun x' y' => if x' = x ∧ y' = y then c else f x' y')

/-- Shape of a destination: its constructor together with the bounds of
an alpha destination. `Dst.set` never changes it. -/
def Dst.shape : Dst → Option Rect
  | .alpha bo _ => some bo
  | .rgba64 _ => none

/-- The source-over blend of `rasterizeOpOver` in `vector.go` at one
pixel, in Go `uint32` arithmetic with the final `uint16` conversion:
`a := 0xffff - (sa * ma / 0xffff)` and each channel becomes
`(d*a + s*ma) / 0xffff`. -/
def overOut (s : RGBA64c) (ma : ℕ) (d : RGBA64c) : RGBA64c :=
  let a := 0xffff - s.a * ma / 0xffff
  ⟨(d.r * a + s.r * ma) / 0xffff % 0x10000,
   (d.g * a + s.g * ma) / 0xffff % 0x10000,
   (d.b * a + s.b * ma) / 0xffff % 0x10000,
   (d.a * a + s.a * ma) / 0xffff % 0x10000⟩

/-- The source-copy blend of `rasterizeOpSrc` in `vector.go` at one
pixel: each channel becomes `s * ma / 0xffff`, with no read of the
destination. -/
def srcOut (s : RGBA64c) (ma : ℕ) : RGBA64c :=
  ⟨s.r * ma / 0xffff % 0x10000,
   s.g * ma / 0xffff % 0x10000,
   s.b * ma / 0xffff % 0x10000,
   s.a * ma / 0xffff % 0x10000⟩

/-- One iteration of the `rasterizeOpOver` loops: sample the source at
the offset point, read the mask, blend over the destination pixel. -/
def opOverPixel (z : Rasterizer) (r : Rect) (src : Src) (sp : Point) (x y : ℕ) (dst : Dst) :
    Dst :=
  dst.set (r.minX + x) (r.minY + y)
    (overOut (src.at (sp.x + x) (sp.y + y)) (z.bufU32 (y * z.sizeX + x))
      (dst.at (r.minX + x) (r.minY + y)))

/-- One iteration of the `rasterizeOpSrc` loops. -/
def opSrcPixel (z : Rasterizer) (r : Rect) (src : Src) (sp : Point) (x y : ℕ) (dst : Dst) :
    Dst :=
  dst.set (r.minX + x) (r.minY + y)
    (srcOut (src.at (sp.x + x) (sp.y + y)) (z.bufU32 (y * z.sizeX + x)))

/-- Inner (column) loop of the rasterize methods: apply the pixel
operation at `(0, y), …, (k-1, y)` in order. -/
def pixelCols (f : ℕ → ℕ → Dst → Dst) (y : ℕ) : ℕ → Dst → Dst
  | 0, dst => dst
  | k + 1, dst => f k y (pixelCols f y k dst)

/-- Outer (row) loop of the rasterize methods: process rows `0, …, k-1`
in order, each row over `w` columns. -/
def pixelRows (f : ℕ → ℕ → Dst → Dst) (w : ℕ) : ℕ → Dst → Dst
  | 0, dst => dst
  | k + 1, dst => pixelCols f (k) w (pixelRows f w k dst)

/-- Embedding of `rasterizeOpOver`: the double loop over the draw
rectangle, source-over compositing each pixel. -/
def rasterizeOpOver (z : Rasterizer) (dst : Dst) (r : Rect) (src : Src) (sp : Point) : Dst :=
  pixelRows (opOverPixel z r src sp) (r.maxX - r.minX).toNat (r.maxY - r.minY).toNat dst

/-- Embedding of `rasterizeOpSrc`. -/
def rasterizeOpSrc (z : Rasterizer) (dst : Dst) (r : Rect) (src : Src) (sp : Point) : Dst :=
  pixelRows (opSrcPixel z r src sp) (r.maxX - r.minX).toNat (r.maxY - r.minY).toNat dst

/-- Modelled from the spec: clamping and fixed-point conversion of one
integrated coverage value (part of the `floatingAccumulate*` functions
of `raster_floating.go`, not among the sources given here): the running
sum's magnitude is clamped to represent at most full coverage and scaled
so that full coverage is `0xffff` (§4.3 of the spec). -/
def accCoverage (acc : ℚ) : ℕ := (min |acc| 1 * 0xffff).floor.toNat

/-- Sum of `f 0 + … + f (k-1)`. -/
def sumTo (f : ℕ → ℚ) : ℕ → ℚ
  | 0 => 0
  | k + 1 => sumTo f k + f k

/-- Modelled from the spec: the running (prefix) sum of the signed-area
buffer that integration computes, taken left to right and row by row
(§4.3 of the spec: rows are integrated independently), at flat index
`i` of a buffer whose rows have width `w`. -/
def rowSum (buf : ℕ → ℚ) (w i : ℕ) : ℚ :=
  sumTo (fun j => buf (i / w * w + j)) (i % w + 1)

/-- Modelled from the spec: `floatingAccumulateMask` of
`raster_floating.go` (not among the sources given here) — integrate the
`len`-element coverage buffer into clamped fixed-point mask values,
leaving the rest of the destination buffer alone. -/
def accumulateMask (buf : ℕ → ℚ) (w len : ℕ) (old : ℕ → ℕ) : ℕ → ℕ :=
  fun i => if i < len then accCoverage (rowSum buf w i) else old i

/-- Modelled from the spec: `floatingAccumulateOpSrc` of
`raster_floating.go` (not among the sources given here) — the fast path
for an opaque uniform source drawn with the source-copy operator onto an
alpha destination writes each integrated coverage value directly as a
byte. -/
def fastAccOpSrc (z : Rasterizer) (pix : ℕ → ℕ) : ℕ → ℕ :=
  fun i =>
    if i < z.lenF32 then accCoverage (rowSum z.bufF32 z.sizeX i) / 0x100 else pix i

/-- Modelled from the spec: `floatingAccumulateOpOver` of
`raster_floating.go` (not among the sources given here) — the fast path
for an opaque uniform source drawn with the source-over operator onto an
alpha destination composites each integrated coverage value with the
pre-existing alpha byte in 16-bit arithmetic. -/
def fastAccOpOver (z : Rasterizer) (pix : ℕ → ℕ) : ℕ → ℕ :=
  fun i =>
    if i < z.lenF32 then
      let am := accCoverage (rowSum z.bufF32 z.sizeX i)
      let d := pix i % 0x100 * 0x101
      (d * (0xffff - am) / 0xffff + am) / 0x100
    else pix i

/-- Embedding of `rasterizeDstAlphaSrcOpaqueOpOver`: only the case of a
draw rectangle equal to both the destination's and the rasterizer's
bounds is implemented; otherwise the method prints a TODO message and
leaves the destination untouched. -/
def rasterizeDstAlphaSrcOpaqueOpOver (z : Rasterizer) (bo : Rect) (pix : ℕ → ℕ) (r : Rect) :
    Dst :=
  if r = bo ∧ r = z.Bounds then .alpha bo (fastAccOpOver z pix) else .alpha bo pix

/-- Embedding of `rasterizeDstAlphaSrcOpaqueOpSrc`, as above. -/
def rasterizeDstAlphaSrcOpaqueOpSrc (z : Rasterizer) (bo : Rect) (pix : ℕ → ℕ) (r : Rect) :
    Dst :=
  if r = bo ∧ r = z.Bounds then .alpha bo (fastAccOpSrc z pix) else .alpha bo pix

/-- The general path of `Draw`: integrate the coverage buffer into the
`bufU32` mask, then run the per-pixel compositing loop selected by the
draw operator. -/
def drawGeneral (z : Rasterizer) (dst : Dst) (r : Rect) (src : Src) (sp : Point) :
    Rasterizer × Dst :=
  let z' := { z with bufU32 := accumulateMask z.bufF32 z.sizeX z.lenF32 z.bufU32 }
  (z', if z.DrawOp = .over then rasterizeOpOver z' dst r src sp
       else rasterizeOpSrc z' dst r src sp)

/-- Embedding of `Rasterizer.Draw`: an opaque uniform source drawn onto
an `*image.Alpha` takes the fast glyph-rendering path; everything else
goes through the mask integration and the general per-pixel path. -/
def Rasterizer.Draw (z : Rasterizer) (dst : Dst) (r : Rect) (src : Src) (sp : Point) :
    Rasterizer × Dst :=
  match src, dst with
  | .uniform c, .alpha bo pix =>
      if c.a = 0xffff then
        if z.DrawOp = .over then (z, rasterizeDstAlphaSrcOpaqueOpOver z bo pix r)
        else (z, rasterizeDstAlphaSrcOpaqueOpSrc z bo pix r)
      else drawGeneral z (.alpha bo pix) r src sp
  | _, _ => drawGeneral z dst r src sp

/-- The segment count claimed by the spec's subdivision formula read
with a ceiling: `1 + ceil((3 * devsq) ^ (1/4))`, transcribed for
comparison with the code's truncating conversion. -/
def specCeilSegmentCount (devsq : ℚ) : ℕ :=
  let q := 3 * devsq
  let f := floorFourthRoot q
  1 + (if ((f : ℚ)) * f * f * f = q then f else f + 1)

/-- The de Casteljau evaluation of the quadratic Bézier through `a`,
`b`, `c` at parameter `t`, exactly as the `QuadTo` loop computes it. -/
def quadPointAt (a b c : Vec2) (t : ℚ) : Vec2 :=
  lerp t (lerp t a b) (lerp t b c)

/-- The de Casteljau evaluation of the cubic Bézier through `a`, `b`,
`c`, `d` at parameter `t`, exactly as the `CubeTo` loop computes it. -/
def cubePointAt (a b c d : Vec2) (t : ℚ) : Vec2 :=
  lerp t (lerp t (lerp t a b) (lerp t b c)) (lerp t (lerp t b c) (lerp t c d))

/-! ### Path-builder and state claims -/

/-- Claim C6: for every prior rasterizer state and all dimensions
`w, h`, after `Reset w h` the coverage buffer's logical length is
`w * h` with every element zero, the pen and the path start are at the
origin, and the draw operator is source-over. -/
theorem Reset_reinitializes (z : Rasterizer) (w h : ℕ) :
    (z.Reset w h).lenF32 = w * h ∧
    (∀ i : ℕ, i < w * h → (z.Reset w h).bufF32 i = 0) ∧
    (z.Reset w h).pen = ⟨0, 0⟩ ∧
    (z.Reset w h).first = ⟨0, 0⟩ ∧
    (z.Reset w h).DrawOp = .over := by
  by_cases hc : z.capF32 < w * h
  · have h1 : z.Reset w h =
        { bufF32 := fun _ => 0, lenF32 := w * h, capF32 := w * h, bufU32 := z.bufU32,
          sizeX := w, sizeY := h, first := ⟨0, 0⟩, pen := ⟨0, 0⟩, DrawOp := .over } := by
      simp only [Rasterizer.Reset, if_pos hc]
    rw [h1]
    exact ⟨rfl, fun i _ => rfl, rfl, rfl, rfl⟩
  · have h1 : z.Reset w h =
        { z with bufF32 := fun i => if i < w * h then 0 else z.bufF32 i, lenF32 := w * h,
                 sizeX := w, sizeY := h, first := ⟨0, 0⟩, pen := ⟨0, 0⟩, DrawOp := .over } := by
      simp only [Rasterizer.Reset, if_neg hc]
    rw [h1]
    exact ⟨rfl, fun i hi => if_pos hi, rfl, rfl, rfl⟩

/-- Witness for C6 at a concrete state and concrete dimensions. -/
theorem Reset_reinitializes_witness :
    ((NewRasterizer 1 1).Reset 2 3).lenF32 = 6 ∧
    ((NewRasterizer 1 1).Reset 2 3).bufF32 4 = 0 ∧
    ((NewRasterizer 1 1).Reset 2 3).DrawOp = .over :=
  ⟨(Reset_reinitializes (NewRasterizer 1 1) 2 3).1,
   (Reset_reinitializes (NewRasterizer 1 1) 2 3).2.1 4 (by decide),
   (Reset_reinitializes (NewRasterizer 1 1) 2 3).2.2.2.2⟩

/-- Claim C7: `ClosePath` produces exactly the state produced by a
`LineTo` to the path-start position (the position `z.first` recorded by
the most recent `MoveTo`): same pen, same path start, same coverage
buffer. -/
theorem ClosePath_eq_LineTo_first (z : Rasterizer) :
    z.ClosePath.pen = (z.LineTo z.first).pen ∧
    z.ClosePath.first = (z.LineTo z.first).first ∧
    (∀ i : ℕ, z.ClosePath.bufF32 i = (z.LineTo z.first).bufF32 i) ∧
    z.ClosePath = z.LineTo z.first :=
  ⟨rfl, rfl, fun _ => rfl, rfl⟩

/-- Claim C9: `MoveTo a` sets the path start and the pen to `a`, leaves
the coverage buffer untouched, and `Pen` immediately afterwards returns
`a`. -/
theorem MoveTo_sets_pen_and_first (z : Rasterizer) (a : Vec2) :
    (z.MoveTo a).first = a ∧
    (z.MoveTo a).pen = a ∧
    (z.MoveTo a).bufF32 = z.bufF32 ∧
    (z.MoveTo a).lenF32 = z.lenF32 ∧
    (z.MoveTo a).Pen = a :=
  ⟨rfl, rfl, rfl, rfl, rfl⟩

/-- Claim C10: `Draw` never changes the rasterizer's size, pen position,
path-start position or draw operator, so `Pen`, `Size` and `Bounds`
answer the same before and after the call. -/
theorem Draw_preserves_path_state (z : Rasterizer) (dst : Dst) (r : Rect) (src : Src)
    (sp : Point) :
    (z.Draw dst r src sp).1.sizeX = z.sizeX ∧
    (z.Draw dst r src sp).1.sizeY = z.sizeY ∧
    (z.Draw dst r src sp).1.pen = z.pen ∧
    (z.Draw dst r src sp).1.first = z.first ∧
    (z.Draw dst r src sp).1.DrawOp = z.DrawOp ∧
    (z.Draw dst r src sp).1.Pen = z.Pen ∧
    (z.Draw dst r src sp).1.Size = z.Size ∧
    (z.Draw dst r src sp).1.Bounds = z.Bounds := by
  have h : (z.Draw dst r src sp).1.sizeX = z.sizeX ∧
      (z.Draw dst r src sp).1.sizeY = z.sizeY ∧
      (z.Draw dst r src sp).1.pen = z.pen ∧
      (z.Draw dst r src sp).1.first = z.first ∧
      (z.Draw dst r src sp).1.DrawOp = z.DrawOp := by
    cases src with
    | uniform c =>
        cases dst with
        | alpha bo pix =>
            unfold Rasterizer.Draw
            by_cases hca : c.a = 0xffff <;> by_cases hop : z.DrawOp = Op.over <;>
              simp [hca, hop, drawGeneral]
        | rgba64 f =>
            unfold Rasterizer.Draw
            simp [drawGeneral]
    | img f =>
        cases dst with
        | alpha bo pix =>
            unfold Rasterizer.Draw
            simp [drawGeneral]
        | rgba64 g =>
            unfold Rasterizer.Draw
            simp [drawGeneral]
  obtain ⟨h1, h2, h3, h4, h5⟩ := h
  refine ⟨h1, h2, h3, h4, h5, h3, ?_, ?_⟩
  · unfold Rasterizer.Size; rw [h1, h2]
  · unfold Rasterizer.Bounds; rw [h1, h2]

/-! ### Curve subdivision (claim C1) -/

theorem natSqrtBelow_sq_le (m : ℕ) : ∀ f : ℕ, natSqrtBelow m f * natSqrtBelow m f ≤ m
  | 0 => Nat.zero_le m
  | f + 1 => by
      rw [natSqrtBelow]
      by_cases h : (f + 1) * (f + 1) ≤ m
      · rw [if_pos h]; exact h
      · rw [if_neg h]; exact natSqrtBelow_sq_le m f

theorem le_natSqrtBelow (m : ℕ) :
    ∀ f j : ℕ, j ≤ f → j * j ≤ m → j ≤ natSqrtBelow m f
  | 0, j, hj, _ => by simpa [natSqrtBelow] using hj
  | f + 1, j, hj, hjm => by
      rw [natSqrtBelow]
      by_cases h : (f + 1) * (f + 1) ≤ m
      · simpa [h] using hj
      · have hjf : j ≤ f := by
          rcases Nat.lt_or_ge j (f + 1) with h' | h'
          · omega
          · exact absurd (Nat.le_trans (Nat.mul_le_mul (by omega) (by omega)) hjm) h
        simpa [h] using le_natSqrtBelow m f j hjf hjm

theorem natSqrt_sq_le (m : ℕ) : natSqrt m * natSqrt m ≤ m :=
  natSqrtBelow_sq_le m m

theorem lt_succ_natSqrt (m : ℕ) : m < (natSqrt m + 1) * (natSqrt m + 1) := by
  by_contra h
  push_neg at h
  have h1 : natSqrt m + 1 ≤ m :=
    Nat.le_trans (Nat.le_mul_of_pos_left _ (Nat.succ_pos _)) h
  have h2 : natSqrt m + 1 ≤ natSqrt m := le_natSqrtBelow m m (natSqrt m + 1) h1 h
  omega

/-- The two nested integer square roots compute the floor of the fourth
root: for `0 ≤ q`, `floorFourthRoot q` is the largest natural whose
fourth power is at most `q`. -/
theorem floorFourthRoot_char (q : ℚ) (hq : 0 ≤ q) :
    ((floorFourthRoot q : ℕ) : ℚ) ^ 4 ≤ q ∧ q < (((floorFourthRoot q + 1 : ℕ)) : ℚ) ^ 4 := by
  set m : ℕ := q.floor.toNat with hm
  have hfl0 : (0 : ℤ) ≤ q.floor := Rat.le_floor.mpr (by exact_mod_cast hq)
  have hmq : ((m : ℚ)) ≤ q := by
    have h1 : ((q.floor : ℚ)) ≤ q := Rat.le_floor.mp (le_refl _)
    rw [hm]
    rw [show ((q.floor.toNat : ℚ)) = ((q.floor : ℚ)) by
      exact_mod_cast congrArg (fun z : ℤ => ((z : ℚ))) (Int.toNat_of_nonneg hfl0)]
    exact h1
  have hqm : q < (m : ℚ) + 1 := by
    by_contra hcon
    push_neg at hcon
    have h2 : q.floor + 1 ≤ q.floor := Rat.le_floor.mpr (by
      push_cast
      rw [show ((q.floor : ℚ)) = ((m : ℚ)) by
        exact_mod_cast (congrArg (fun z : ℤ => ((z : ℚ))) (Int.toNat_of_nonneg hfl0)).symm]
      exact hcon)
    omega
  set k : ℕ := natSqrt (natSqrt m) with hk
  have hlow : k ^ 4 ≤ m := by
    calc k ^ 4 = (k * k) * (k * k) := by ring
    _ ≤ natSqrt m * natSqrt m := Nat.mul_le_mul (natSqrt_sq_le _) (natSqrt_sq_le _)
    _ ≤ m := natSqrt_sq_le m
  have hhigh : m < (k + 1) ^ 4 := by
    have h1 : natSqrt m + 1 ≤ (k + 1) * (k + 1) := lt_succ_natSqrt (natSqrt m)
    calc m < (natSqrt m + 1) * (natSqrt m + 1) := lt_succ_natSqrt m
    _ ≤ ((k + 1) * (k + 1)) * ((k + 1) * (k + 1)) := Nat.mul_le_mul h1 h1
    _ = (k + 1) ^ 4 := by ring
  have hker : floorFourthRoot q = k := rfl
  constructor
  · rw [hker]
    calc ((k : ℚ)) ^ 4 = ((k ^ 4 : ℕ) : ℚ) := by push_cast; ring
    _ ≤ ((m : ℚ)) := by exact_mod_cast hlow
    _ ≤ q := hmq
  · rw [hker]
    have h3 : m + 1 ≤ (k + 1) ^ 4 := hhigh
    calc q < (m : ℚ) + 1 := hqm
    _ = (((m + 1 : ℕ)) : ℚ) := by push_cast; ring
    _ ≤ (((k + 1 : ℕ)) : ℚ) ^ 4 := by
        rw [show ((((k + 1 : ℕ)) : ℚ)) ^ 4 = (((k + 1) ^ 4 : ℕ) : ℚ) by push_cast; ring]
        exact_mod_cast h3

theorem quadLoopPoints_length (a b c : Vec2) (nInv : ℚ) :
    ∀ (k : ℕ) (t0 : ℚ), (quadLoopPoints a b c nInv k t0).length = k
  | 0, _ => rfl
  | k + 1, t0 => by
      rw [quadLoopPoints]
      simpa using quadLoopPoints_length a b c nInv k (t0 + nInv)

theorem cubeLoopPoints_length (a b c d : Vec2) (nInv : ℚ) :
    ∀ (k : ℕ) (t0 : ℚ), (cubeLoopPoints a b c d nInv k t0).length = k
  | 0, _ => rfl
  | k + 1, t0 => by
      rw [cubeLoopPoints]
      simpa using cubeLoopPoints_length a b c d nInv k (t0 + nInv)

theorem quadLoopPoints_eq (a b c : Vec2) (nInv : ℚ) :
    ∀ (k : ℕ) (t0 : ℚ),
      quadLoopPoints a b c nInv k t0 =
        (List.range k).map (fun i : ℕ => quadPointAt a b c (t0 + ((i : ℚ) + 1) * nInv)) := by
  intro k
  induction k with
  | zero => intro t0; rfl
  | succ k ih =>
      intro t0
      rw [quadLoopPoints, ih (t0 + nInv), List.range_succ_eq_map, List.map_cons,
        List.map_map]
      congr 1
      · show quadPointAt a b c (t0 + nInv) = quadPointAt a b c (t0 + (((0 : ℕ) : ℚ) + 1) * nInv)
        norm_num
      · apply List.map_congr_left
        intro i _
        show quadPointAt a b c (t0 + nInv + ((i : ℚ) + 1) * nInv) =
          quadPointAt a b c (t0 + (((Nat.succ i : ℕ) : ℚ) + 1) * nInv)
        have ht : t0 + nInv + ((i : ℚ) + 1) * nInv =
            t0 + (((Nat.succ i : ℕ) : ℚ) + 1) * nInv := by
          push_cast
          ring
        exact congrArg (quadPointAt a b c) ht

theorem cubeLoopPoints_eq (a b c d : Vec2) (nInv : ℚ) :
    ∀ (k : ℕ) (t0 : ℚ),
      cubeLoopPoints a b c d nInv k t0 =
        (List.range k).map (fun i : ℕ => cubePointAt a b c d (t0 + ((i : ℚ) + 1) * nInv)) := by
  intro k
  induction k with
  | zero => intro t0; rfl
  | succ k ih =>
      intro t0
      rw [cubeLoopPoints, ih (t0 + nInv), List.range_succ_eq_map, List.map_cons,
        List.map_map]
      congr 1
      · show cubePointAt a b c d (t0 + nInv) =
          cubePointAt a b c d (t0 + (((0 : ℕ) : ℚ) + 1) * nInv)
        norm_num
      · apply List.map_congr_left
        intro i _
        show cubePointAt a b c d (t0 + nInv + ((i : ℚ) + 1) * nInv) =
          cubePointAt a b c d (t0 + (((Nat.succ i : ℕ) : ℚ) + 1) * nInv)
        have ht : t0 + nInv + ((i : ℚ) + 1) * nInv =
            t0 + (((Nat.succ i : ℕ) : ℚ) + 1) * nInv := by
          push_cast
          ring
        exact congrArg (cubePointAt a b c d) ht

/-- Claim C1 (amended): when the squared deviation reaches the `0.333`
tolerance, `QuadTo` emits exactly `n` line segments with
`n = 1 + floor((3 * devsq)^(1/4))` — Go's `int(...)` conversion
truncates, it does not take a ceiling — via de Casteljau evaluation at
the interior parameters `(i+1)/n` followed by a final segment to the
end point; `CubeTo` does the same with the larger of the deviations
through its two control points, each half under its own tolerance
condition. -/
theorem QuadTo_CubeTo_subdivision (z : Rasterizer) (b c d : Vec2) :
    (333 / 1000 ≤ devSquared z.pen b c →
      z.QuadTo b c = (quadPoints z.pen b c).foldl Rasterizer.LineTo z ∧
      ((subdivCount (devSquared z.pen b c) - 1 : ℕ) : ℚ) ^ 4 ≤ 3 * devSquared z.pen b c ∧
      3 * devSquared z.pen b c < ((subdivCount (devSquared z.pen b c) : ℕ) : ℚ) ^ 4 ∧
      quadPoints z.pen b c =
        (List.range (subdivCount (devSquared z.pen b c) - 1)).map
          (fun i : ℕ =>
            quadPointAt z.pen b c
              (((i : ℚ) + 1) / (subdivCount (devSquared z.pen b c) : ℚ))) ++
          [c] ∧
      (quadPoints z.pen b c).length = subdivCount (devSquared z.pen b c)) ∧
    (333 / 1000 ≤ max (devSquared z.pen b d) (devSquared z.pen c d) →
      z.CubeTo b c d = (cubePoints z.pen b c d).foldl Rasterizer.LineTo z ∧
      ((subdivCount (max (devSquared z.pen b d) (devSquared z.pen c d)) - 1 : ℕ) : ℚ) ^ 4 ≤
        3 * max (devSquared z.pen b d) (devSquared z.pen c d) ∧
      3 * max (devSquared z.pen b d) (devSquared z.pen c d) <
        ((subdivCount (max (devSquared z.pen b d) (devSquared z.pen c d)) : ℕ) : ℚ) ^ 4 ∧
      cubePoints z.pen b c d =
        (List.range (subdivCount (max (devSquared z.pen b d) (devSquared z.pen c d)) - 1)).map
          (fun i : ℕ =>
            cubePointAt z.pen b c d
              (((i : ℚ) + 1) /
                (subdivCount (max (devSquared z.pen b d) (devSquared z.pen c d)) : ℚ))) ++
          [d] ∧
      (cubePoints z.pen b c d).length =
        subdivCount (max (devSquared z.pen b d) (devSquared z.pen c d))) := by
  have h0 : (0 : ℚ) ≤ 333 / 1000 := by norm_num
  constructor
  · intro hq
    have hq3 : (0 : ℚ) ≤ 3 * devSquared z.pen b c := by
      have := le_trans h0 hq
      linarith
    have charq := floorFourthRoot_char (3 * devSquared z.pen b c) hq3
    have hnq1 : subdivCount (devSquared z.pen b c) - 1 =
        floorFourthRoot (3 * devSquared z.pen b c) := by
      simp [subdivCount]
    have hnq : subdivCount (devSquared z.pen b c) =
        floorFourthRoot (3 * devSquared z.pen b c) + 1 := by
      simp [subdivCount, Nat.add_comm]
    have hquadpts : quadPoints z.pen b c =
        (List.range (subdivCount (devSquared z.pen b c) - 1)).map
          (fun i : ℕ =>
            quadPointAt z.pen b c
              (((i : ℚ) + 1) / (subdivCount (devSquared z.pen b c) : ℚ))) ++
          [c] := by
      simp only [quadPoints]
      rw [if_pos hq, quadLoopPoints_eq]
      congr 1
      apply List.map_congr_left
      intro i _
      rw [zero_add, mul_one_div]
    refine ⟨rfl, ?_, ?_, hquadpts, ?_⟩
    · rw [hnq1]; exact charq.1
    · rw [hnq]; exact charq.2
    · rw [hquadpts]
      simp only [List.length_append, List.length_map, List.length_range, List.length_singleton]
      omega
  · intro hcu
    have hc3 : (0 : ℚ) ≤ 3 * max (devSquared z.pen b d) (devSquared z.pen c d) := by
      have := le_trans h0 hcu
      linarith
    have charc :=
      floorFourthRoot_char (3 * max (devSquared z.pen b d) (devSquared z.pen c d)) hc3
    have hnc1 : subdivCount (max (devSquared z.pen b d) (devSquared z.pen c d)) - 1 =
        floorFourthRoot (3 * max (devSquared z.pen b d) (devSquared z.pen c d)) := by
      simp [subdivCount]
    have hnc : subdivCount (max (devSquared z.pen b d) (devSquared z.pen c d)) =
        floorFourthRoot (3 * max (devSquared z.pen b d) (devSquared z.pen c d)) + 1 := by
      simp [subdivCount, Nat.add_comm]
    have hcubepts : cubePoints z.pen b c d =
        (List.range
          (subdivCount (max (devSquared z.pen b d) (devSquared z.pen c d)) - 1)).map
          (fun i : ℕ =>
            cubePointAt z.pen b c d
              (((i : ℚ) + 1) /
                (subdivCount (max (devSquared z.pen b d) (devSquared z.pen c d)) : ℚ))) ++
          [d] := by
      simp only [cubePoints]
      rw [if_pos hcu, cubeLoopPoints_eq]
      congr 1
      apply List.map_congr_left
      intro i _
      rw [zero_add, mul_one_div]
    refine ⟨rfl, ?_, ?_, hcubepts, ?_⟩
    · rw [hnc1]; exact charc.1
    · rw [hnc]; exact charc.2
    · rw [hcubepts]
      simp only [List.length_append, List.length_map, List.length_range, List.length_singleton]
      omega

/-- Counterexample to claim C1 as stated: with the pen at the origin,
control point `(1, 0)` and end point `(0, 0)`, the squared deviation is
`4 ≥ 0.333`, yet `QuadTo` emits `2` line segments while the claimed
count `1 + ceil((3 * 4)^(1/4))` is `3`. -/
theorem QuadTo_ceil_segment_count_cex :
    333 / 1000 ≤ devSquared ⟨0, 0⟩ ⟨1, 0⟩ ⟨0, 0⟩ ∧
    (quadPoints ⟨0, 0⟩ ⟨1, 0⟩ ⟨0, 0⟩).length ≠
      specCeilSegmentCount (devSquared ⟨0, 0⟩ ⟨1, 0⟩ ⟨0, 0⟩) := by
  have hdev : devSquared ⟨0, 0⟩ ⟨1, 0⟩ ⟨0, 0⟩ = 4 := by norm_num [devSquared]
  have h12 : (3 : ℚ) * 4 = 12 := by norm_num
  have hfl : ((12 : ℚ)).floor.toNat = 12 := by
    norm_num [Rat.floor]
    decide
  have hfr : floorFourthRoot 12 = 1 := by
    show natSqrt (natSqrt ((12 : ℚ)).floor.toNat) = 1
    rw [hfl]
    decide
  have hsub : subdivCount 4 = 2 := by
    show 1 + floorFourthRoot (3 * 4) = 2
    rw [h12, hfr]
  have htol : (333 : ℚ) / 1000 ≤ 4 := by norm_num
  have hlen : (quadPoints ⟨0, 0⟩ ⟨1, 0⟩ ⟨0, 0⟩).length = 2 := by
    simp only [quadPoints, hdev]
    rw [if_pos htol, hsub]
    simp [quadLoopPoints_length]
  have hspec : specCeilSegmentCount 4 = 3 := by
    simp only [specCeilSegmentCount]
    rw [h12, hfr]
    norm_num
  refine ⟨by rw [hdev]; exact htol, ?_⟩
  rw [hdev, hlen, hspec]
  decide

/-- Witness for the amended claim C1: the quadratic half at a curve
with deviation 4, the cubic half at a curve whose chord is straight
through the first control point (`devSquared(a, b, c) = 0`) but whose
single-control deviations are 8 and 16, so only the cubic tolerance
condition holds. -/
theorem QuadTo_CubeTo_subdivision_witness :
    (quadPoints ⟨0, 0⟩ ⟨1, 0⟩ ⟨0, 0⟩).length = subdivCount (devSquared ⟨0, 0⟩ ⟨1, 0⟩ ⟨0, 0⟩) ∧
    (cubePoints ⟨0, 0⟩ ⟨1, 1⟩ ⟨2, 2⟩ ⟨4, 0⟩).length =
      subdivCount
        (max (devSquared ⟨0, 0⟩ ⟨1, 1⟩ ⟨4, 0⟩) (devSquared ⟨0, 0⟩ ⟨2, 2⟩ ⟨4, 0⟩)) := by
  have h1 : (333 : ℚ) / 1000 ≤ devSquared (NewRasterizer 0 0).pen ⟨1, 0⟩ ⟨0, 0⟩ := by
    norm_num [devSquared, NewRasterizer]
  have h2 : (333 : ℚ) / 1000 ≤
      max (devSquared (NewRasterizer 0 0).pen ⟨1, 1⟩ ⟨4, 0⟩)
        (devSquared (NewRasterizer 0 0).pen ⟨2, 2⟩ ⟨4, 0⟩) := by
    norm_num [devSquared, NewRasterizer, le_max_iff]
  exact ⟨((QuadTo_CubeTo_subdivision (NewRasterizer 0 0) ⟨1, 0⟩ ⟨0, 0⟩ ⟨0, 0⟩).1 h1).2.2.2.2,
    ((QuadTo_CubeTo_subdivision (NewRasterizer 0 0) ⟨1, 1⟩ ⟨2, 2⟩ ⟨4, 0⟩).2 h2).2.2.2.2⟩

/-! ### Destination read/write lemmas -/

theorem alphaOffset_inj (bo : Rect) {x y x' y' : ℤ} (h : inRect bo x y) (h' : inRect bo x' y')
    (ho : alphaOffset bo x' y' = alphaOffset bo x y) : x' = x ∧ y' = y := by
  obtain ⟨h1, h2, h3, h4⟩ := h
  obtain ⟨h5, h6, h7, h8⟩ := h'
  unfold alphaOffset at ho
  set W := (bo.maxX - bo.minX).toNat with hW
  have ha : (x - bo.minX).toNat < W := by omega
  have ha' : (x' - bo.minX).toNat < W := by omega
  have e1 : ((y' - bo.minY).toNat * W + (x' - bo.minX).toNat) % W = (x' - bo.minX).toNat := by
    rw [Nat.mul_comm ((y' - bo.minY).toNat) W, Nat.mul_add_mod]
    exact Nat.mod_eq_of_lt ha'
  have e2 : ((y - bo.minY).toNat * W + (x - bo.minX).toNat) % W = (x - bo.minX).toNat := by
    rw [Nat.mul_comm ((y - bo.minY).toNat) W, Nat.mul_add_mod]
    exact Nat.mod_eq_of_lt ha
  have hxeq : (x' - bo.minX).toNat = (x - bo.minX).toNat := by
    rw [← e1, ← e2, ho]
  have hyeq : (y' - bo.minY).toNat = (y - bo.minY).toNat := by
    have hmul : (y' - bo.minY).toNat * W = (y - bo.minY).toNat * W := by omega
    exact Nat.eq_of_mul_eq_mul_right (by omega) hmul
  constructor <;> omega

theorem Dst.at_set_ne (d : Dst) (x y x' y' : ℤ) (c : RGBA64c) (h : ¬(x' = x ∧ y' = y)) :
    (d.set x y c).at x' y' = d.at x' y' := by
  cases d with
  | rgba64 f =>
      simp only [Dst.set, Dst.at]
      rw [if_neg h]
  | alpha bo pix =>
      simp only [Dst.set]
      by_cases hin : inRect bo x y
      · rw [if_pos hin]
        simp only [Dst.at]
        by_cases hin' : inRect bo x' y'
        · rw [if_pos hin', if_pos hin']
          have hoff : ¬(alphaOffset bo x' y' = alphaOffset bo x y) := by
            intro heq
            exact h (alphaOffset_inj bo hin hin' heq)
          rw [if_neg hoff]
        · rw [if_neg hin', if_neg hin']
      · rw [if_neg hin]

theorem Dst.shape_set (d : Dst) (x y : ℤ) (c : RGBA64c) : (d.set x y c).shape = d.shape := by
  cases d with
  | alpha bo pix =>
      simp only [Dst.set]
      split_ifs <;> rfl
  | rgba64 f => rfl

theorem Dst.at_set_self_shape (d₁ d₂ : Dst) (x y : ℤ) (c : RGBA64c)
    (h : d₁.shape = d₂.shape) :
    (d₁.set x y c).at x y = (d₂.set x y c).at x y := by
  cases d₁ with
  | alpha bo pix =>
      cases d₂ with
      | alpha bo' pix' =>
          have hbo : bo = bo' := by simpa [Dst.shape] using h
          subst hbo
          simp only [Dst.set]
          by_cases hin : inRect bo x y
          · rw [if_pos hin, if_pos hin]
            simp [Dst.at, hin]
          · rw [if_neg hin, if_neg hin]
            simp [Dst.at, hin]
      | rgba64 f => exact absurd h (by simp [Dst.shape])
  | rgba64 f =>
      cases d₂ with
      | alpha bo pix => exact absurd h (by simp [Dst.shape])
      | rgba64 g => simp [Dst.set, Dst.at]

/-! ### Loop characterization: the rasterize loops write each pixel of
the draw rectangle once, from its own pre-call value, and touch nothing
else. -/

theorem pixelCols_shape (f : ℕ → ℕ → Dst → Dst)
    (Hs : ∀ x y dst, (f x y dst).shape = dst.shape) (y : ℕ) :
    ∀ (k : ℕ) (dst : Dst), (pixelCols f y k dst).shape = dst.shape
  | 0, _ => rfl
  | k + 1, dst => by
      rw [pixelCols, Hs, pixelCols_shape f Hs y k]

theorem pixelRows_shape (f : ℕ → ℕ → Dst → Dst)
    (Hs : ∀ x y dst, (f x y dst).shape = dst.shape) (w : ℕ) :
    ∀ (k : ℕ) (dst : Dst), (pixelRows f w k dst).shape = dst.shape
  | 0, _ => rfl
  | k + 1, dst => by
      rw [pixelRows, pixelCols_shape f Hs k, pixelRows_shape f Hs w k]

theorem pixelCols_at_out (r : Rect) (g : ℕ → ℕ → RGBA64c → RGBA64c) (f : ℕ → ℕ → Dst → Dst)
    (Hf : ∀ (x y : ℕ) (dst : Dst),
      f x y dst =
        dst.set (r.minX + x) (r.minY + y) (g x y (dst.at (r.minX + x) (r.minY + y))))
    (y : ℕ) (X Y : ℤ) :
    ∀ k : ℕ, (∀ x : ℕ, x < k → ¬(X = r.minX + x ∧ Y = r.minY + y)) →
      ∀ dst : Dst, (pixelCols f y k dst).at X Y = dst.at X Y
  | 0, _, _ => rfl
  | k + 1, hout, dst => by
      rw [pixelCols, Hf, Dst.at_set_ne _ _ _ _ _ _ (hout k (Nat.lt_succ_self k))]
      exact pixelCols_at_out r g f Hf y X Y k
        (fun x hx => hout x (Nat.lt_succ_of_lt hx)) dst

theorem pixelCols_at_hit (r : Rect) (g : ℕ → ℕ → RGBA64c → RGBA64c) (f : ℕ → ℕ → Dst → Dst)
    (Hf : ∀ (x y : ℕ) (dst : Dst),
      f x y dst =
        dst.set (r.minX + x) (r.minY + y) (g x y (dst.at (r.minX + x) (r.minY + y))))
    (y : ℕ) :
    ∀ (k x : ℕ), x < k → ∀ dst : Dst,
      (pixelCols f y k dst).at (r.minX + x) (r.minY + y) =
        (dst.set (r.minX + x) (r.minY + y)
          (g x y (dst.at (r.minX + x) (r.minY + y)))).at (r.minX + x) (r.minY + y)
  | 0, x, hx, _ => absurd hx (Nat.not_lt_zero x)
  | k + 1, x, hx, dst => by
      rw [pixelCols, Hf]
      rcases Nat.lt_succ_iff_lt_or_eq.mp hx with h | h
      · have hne : ¬((r.minX + (x : ℤ)) = r.minX + (k : ℤ) ∧
            (r.minY + (y : ℤ)) = r.minY + (y : ℤ)) := by
          intro hcon
          have h1 := hcon.1
          omega
        rw [Dst.at_set_ne _ _ _ _ _ _ hne]
        exact pixelCols_at_hit r g f Hf y k x h dst
      · subst h
        have hD : (pixelCols f y x dst).at (r.minX + x) (r.minY + y) =
            dst.at (r.minX + x) (r.minY + y) :=
          pixelCols_at_out r g f Hf y _ _ x
            (fun x' hx' => by
              intro hcon
              have h1 := hcon.1
              omega) dst
        rw [hD]
        exact Dst.at_set_self_shape _ _ _ _ _
          (pixelCols_shape f
            (fun a bq dst' => by rw [Hf]; exact Dst.shape_set _ _ _ _) y x dst)

theorem pixelRows_at_out (r : Rect) (g : ℕ → ℕ → RGBA64c → RGBA64c) (f : ℕ → ℕ → Dst → Dst)
    (Hf : ∀ (x y : ℕ) (dst : Dst),
      f x y dst =
        dst.set (r.minX + x) (r.minY + y) (g x y (dst.at (r.minX + x) (r.minY + y))))
    (w : ℕ) (X Y : ℤ) :
    ∀ k : ℕ, (∀ x y : ℕ, x < w → y < k → ¬(X = r.minX + x ∧ Y = r.minY + y)) →
      ∀ dst : Dst, (pixelRows f w k dst).at X Y = dst.at X Y
  | 0, _, _ => rfl
  | k + 1, hout, dst => by
      rw [pixelRows,
        pixelCols_at_out r g f Hf k X Y w (fun x hx => hout x k hx (Nat.lt_succ_self k))]
      exact pixelRows_at_out r g f Hf w X Y k
        (fun x y hx hy => hout x y hx (Nat.lt_succ_of_lt hy)) dst

theorem pixelRows_at_hit (r : Rect) (g : ℕ → ℕ → RGBA64c → RGBA64c) (f : ℕ → ℕ → Dst → Dst)
    (Hf : ∀ (x y : ℕ) (dst : Dst),
      f x y dst =
        dst.set (r.minX + x) (r.minY + y) (g x y (dst.at (r.minX + x) (r.minY + y))))
    (w : ℕ) :
    ∀ (h x y : ℕ), x < w → y < h → ∀ dst : Dst,
      (pixelRows f w h dst).at (r.minX + x) (r.minY + y) =
        (dst.set (r.minX + x) (r.minY + y)
          (g x y (dst.at (r.minX + x) (r.minY + y)))).at (r.minX + x) (r.minY + y)
  | 0, x, y, _, hy, _ => absurd hy (Nat.not_lt_zero y)
  | k + 1, x, y, hx, hy, dst => by
      rw [pixelRows]
      rcases Nat.lt_succ_iff_lt_or_eq.mp hy with h | h
      · rw [pixelCols_at_out r g f Hf k _ _ w
          (fun x' hx' => by
            intro hcon
            have h2 := hcon.2
            omega)]
        exact pixelRows_at_hit r g f Hf w k x y hx h dst
      · subst h
        rw [pixelCols_at_hit r g f Hf y w x hx]
        have hD : (pixelRows f w y dst).at (r.minX + x) (r.minY + y) =
            dst.at (r.minX + x) (r.minY + y) :=
          pixelRows_at_out r g f Hf w _ _ y
            (fun x' y' hx' hy' => by
              intro hcon
              have h2 := hcon.2
              omega) dst
        rw [hD]
        exact Dst.at_set_self_shape _ _ _ _ _
          (pixelRows_shape f
            (fun a bq dst' => by rw [Hf]; exact Dst.shape_set _ _ _ _) w y dst)

/-- The value of `rasterizeOpOver` at a pixel of the draw rectangle: the
source-over blend of the pre-call destination value at that pixel with
the source sample and the mask value at that pixel, written through the
destination's `Set`. -/
theorem rasterizeOpOver_at_hit (z : Rasterizer) (dst : Dst) (r : Rect) (src : Src) (sp : Point)
    (x y : ℕ) (hx : x < (r.maxX - r.minX).toNat) (hy : y < (r.maxY - r.minY).toNat) :
    (rasterizeOpOver z dst r src sp).at (r.minX + x) (r.minY + y) =
      (dst.set (r.minX + x) (r.minY + y)
        (overOut (src.at (sp.x + x) (sp.y + y)) (z.bufU32 (y * z.sizeX + x))
          (dst.at (r.minX + x) (r.minY + y)))).at (r.minX + x) (r.minY + y) :=
  pixelRows_at_hit r
    (fun x y => overOut (src.at (sp.x + x) (sp.y + y)) (z.bufU32 (y * z.sizeX + x)))
    (opOverPixel z r src sp) (fun _ _ _ => rfl) _ _ x y hx hy dst

/-- `rasterizeOpOver` leaves every pixel outside the draw rectangle
unchanged. -/
theorem rasterizeOpOver_at_out (z : Rasterizer) (dst : Dst) (r : Rect) (src : Src) (sp : Point)
    (X Y : ℤ) (h : ¬ inRect r X Y) :
    (rasterizeOpOver z dst r src sp).at X Y = dst.at X Y :=
  pixelRows_at_out r
    (fun x y => overOut (src.at (sp.x + x) (sp.y + y)) (z.bufU32 (y * z.sizeX + x)))
    (opOverPixel z r src sp) (fun _ _ _ => rfl) _ X Y _
    (fun x y hx hy => by
      intro hcon
      obtain ⟨hX, hY⟩ := hcon
      exact h ⟨by omega, by omega, by omega, by omega⟩) dst

/-- The value of `rasterizeOpSrc` at a pixel of the draw rectangle. -/
theorem rasterizeOpSrc_at_hit (z : Rasterizer) (dst : Dst) (r : Rect) (src : Src) (sp : Point)
    (x y : ℕ) (hx : x < (r.maxX - r.minX).toNat) (hy : y < (r.maxY - r.minY).toNat) :
    (rasterizeOpSrc z dst r src sp).at (r.minX + x) (r.minY + y) =
      (dst.set (r.minX + x) (r.minY + y)
        (srcOut (src.at (sp.x + x) (sp.y + y))
          (z.bufU32 (y * z.sizeX + x)))).at (r.minX + x) (r.minY + y) :=
  pixelRows_at_hit r
    (fun x y _ => srcOut (src.at (sp.x + x) (sp.y + y)) (z.bufU32 (y * z.sizeX + x)))
    (opSrcPixel z r src sp) (fun _ _ _ => rfl) _ _ x y hx hy dst

/-- `rasterizeOpSrc` leaves every pixel outside the draw rectangle
unchanged. -/
theorem rasterizeOpSrc_at_out (z : Rasterizer) (dst : Dst) (r : Rect) (src : Src) (sp : Point)
    (X Y : ℤ) (h : ¬ inRect r X Y) :
    (rasterizeOpSrc z dst r src sp).at X Y = dst.at X Y :=
  pixelRows_at_out r
    (fun x y _ => srcOut (src.at (sp.x + x) (sp.y + y)) (z.bufU32 (y * z.sizeX + x)))
    (opSrcPixel z r src sp) (fun _ _ _ => rfl) _ X Y _
    (fun x y hx hy => by
      intro hcon
      obtain ⟨hX, hY⟩ := hcon
      exact h ⟨by omega, by omega, by omega, by omega⟩) dst

/-! ### The per-pixel blend formulas (claims C3 and C4) -/

theorem overChannel_le (dch sch sa ma : ℕ) (hd : dch ≤ 0xffff) (hs : sch ≤ sa)
    (hsa : sa ≤ 0xffff) (hm : ma ≤ 0xffff) :
    (dch * (0xffff - sa * ma / 0xffff) + sch * ma) / 0xffff ≤ 0xffff := by
  have hQle : sa * ma / 0xffff ≤ 0xffff := by
    calc sa * ma / 0xffff ≤ 0xffff * 0xffff / 0xffff :=
          Nat.div_le_div_right (Nat.mul_le_mul hsa hm)
    _ = 0xffff := by norm_num
  have hmod := Nat.div_add_mod (sa * ma) 0xffff
  have hrem : sa * ma % 0xffff < 0xffff := Nat.mod_lt _ (by norm_num)
  have hbound : dch * (0xffff - sa * ma / 0xffff) + sch * ma < 0x10000 * 0xffff := by
    calc dch * (0xffff - sa * ma / 0xffff) + sch * ma
        ≤ 0xffff * (0xffff - sa * ma / 0xffff) + sa * ma :=
          Nat.add_le_add (Nat.mul_le_mul_right _ hd) (Nat.mul_le_mul_right _ hs)
    _ = 0xffff * (0xffff - sa * ma / 0xffff) + (0xffff * (sa * ma / 0xffff) + sa * ma % 0xffff) := by
          rw [hmod]
    _ = 0xffff * ((0xffff - sa * ma / 0xffff) + sa * ma / 0xffff) + sa * ma % 0xffff := by
          rw [Nat.mul_add]
          omega
    _ = 0xffff * 0xffff + sa * ma % 0xffff := by
          rw [Nat.sub_add_cancel hQle]
    _ < 0xffff * 0xffff + 0xffff := by omega
    _ = 0x10000 * 0xffff := by norm_num
  have hlt := (Nat.div_lt_iff_lt_mul (show 0 < 0xffff by norm_num)).mpr hbound
  omega

theorem srcChannel_le (sch ma : ℕ) (hs : sch ≤ 0xffff) (hm : ma ≤ 0xffff) :
    sch * ma / 0xffff ≤ 0xffff := by
  calc sch * ma / 0xffff ≤ 0xffff * 0xffff / 0xffff :=
        Nat.div_le_div_right (Nat.mul_le_mul hs hm)
  _ = 0xffff := by norm_num

/-- For in-contract colours the `uint16` conversions of the source-over
blend are value-preserving. -/
theorem overOut_eq (s : RGBA64c) (ma : ℕ) (d : RGBA64c)
    (hs : s.r ≤ s.a ∧ s.g ≤ s.a ∧ s.b ≤ s.a ∧ s.a ≤ 0xffff)
    (hd : d.r ≤ 0xffff ∧ d.g ≤ 0xffff ∧ d.b ≤ 0xffff ∧ d.a ≤ 0xffff)
    (hm : ma ≤ 0xffff) :
    overOut s ma d =
      ⟨(d.r * (0xffff - s.a * ma / 0xffff) + s.r * ma) / 0xffff,
       (d.g * (0xffff - s.a * ma / 0xffff) + s.g * ma) / 0xffff,
       (d.b * (0xffff - s.a * ma / 0xffff) + s.b * ma) / 0xffff,
       (d.a * (0xffff - s.a * ma / 0xffff) + s.a * ma) / 0xffff⟩ := by
  obtain ⟨hsr, hsg, hsb, hsa⟩ := hs
  obtain ⟨hdr, hdg, hdb, hda⟩ := hd
  unfold overOut
  have br := overChannel_le d.r s.r s.a ma hdr hsr hsa hm
  have bg := overChannel_le d.g s.g s.a ma hdg hsg hsa hm
  have bb := overChannel_le d.b s.b s.a ma hdb hsb hsa hm
  have ba := overChannel_le d.a s.a s.a ma hda (le_refl _) hsa hm
  simp only [RGBA64c.mk.injEq]
  refine ⟨?_, ?_, ?_, ?_⟩ <;> omega

/-- For in-contract colours the `uint16` conversions of the source-copy
blend are value-preserving. -/
theorem srcOut_eq (s : RGBA64c) (ma : ℕ)
    (hs : s.r ≤ 0xffff ∧ s.g ≤ 0xffff ∧ s.b ≤ 0xffff ∧ s.a ≤ 0xffff) (hm : ma ≤ 0xffff) :
    srcOut s ma =
      ⟨s.r * ma / 0xffff, s.g * ma / 0xffff, s.b * ma / 0xffff, s.a * ma / 0xffff⟩ := by
  obtain ⟨hsr, hsg, hsb, hsa⟩ := hs
  unfold srcOut
  have br := srcChannel_le s.r ma hsr hm
  have bg := srcChannel_le s.g ma hsg hm
  have bb := srcChannel_le s.b ma hsb hm
  have ba := srcChannel_le s.a ma hsa hm
  simp only [RGBA64c.mk.injEq]
  refine ⟨?_, ?_, ?_, ?_⟩ <;> omega

/-- Claim C3: on the general source-over path, each destination pixel
inside the draw rectangle (relative coordinates `(x, y)`) is set, per
channel, to `(dst*(0xffff - srcAlpha*coverage/0xffff) + src*coverage) /
0xffff`, where the coverage is that pixel's integrated mask value and
`dst` is the destination value read before the write. Stated for a
destination that stores 16-bit premultiplied pixels exactly, for
in-contract colour values. -/
theorem rasterizeOpOver_general_formula (z : Rasterizer) (f : ℤ → ℤ → RGBA64c) (r : Rect)
    (src : Src) (sp : Point) (x y : ℕ)
    (hx : x < (r.maxX - r.minX).toNat) (hy : y < (r.maxY - r.minY).toNat)
    (hs : (src.at (sp.x + x) (sp.y + y)).r ≤ (src.at (sp.x + x) (sp.y + y)).a ∧
      (src.at (sp.x + x) (sp.y + y)).g ≤ (src.at (sp.x + x) (sp.y + y)).a ∧
      (src.at (sp.x + x) (sp.y + y)).b ≤ (src.at (sp.x + x) (sp.y + y)).a ∧
      (src.at (sp.x + x) (sp.y + y)).a ≤ 0xffff)
    (hd : (f (r.minX + x) (r.minY + y)).r ≤ 0xffff ∧ (f (r.minX + x) (r.minY + y)).g ≤ 0xffff ∧
      (f (r.minX + x) (r.minY + y)).b ≤ 0xffff ∧ (f (r.minX + x) (r.minY + y)).a ≤ 0xffff)
    (hm : z.bufU32 (y * z.sizeX + x) ≤ 0xffff) :
    (rasterizeOpOver z (.rgba64 f) r src sp).at (r.minX + x) (r.minY + y) =
      ⟨((f (r.minX + x) (r.minY + y)).r *
          (0xffff - (src.at (sp.x + x) (sp.y + y)).a * z.bufU32 (y * z.sizeX + x) / 0xffff) +
          (src.at (sp.x + x) (sp.y + y)).r * z.bufU32 (y * z.sizeX + x)) / 0xffff,
       ((f (r.minX + x) (r.minY + y)).g *
          (0xffff - (src.at (sp.x + x) (sp.y + y)).a * z.bufU32 (y * z.sizeX + x) / 0xffff) +
          (src.at (sp.x + x) (sp.y + y)).g * z.bufU32 (y * z.sizeX + x)) / 0xffff,
       ((f (r.minX + x) (r.minY + y)).b *
          (0xffff - (src.at (sp.x + x) (sp.y + y)).a * z.bufU32 (y * z.sizeX + x) / 0xffff) +
          (src.at (sp.x + x) (sp.y + y)).b * z.bufU32 (y * z.sizeX + x)) / 0xffff,
       ((f (r.minX + x) (r.minY + y)).a *
          (0xffff - (src.at (sp.x + x) (sp.y + y)).a * z.bufU32 (y * z.sizeX + x) / 0xffff) +
          (src.at (sp.x + x) (sp.y + y)).a * z.bufU32 (y * z.sizeX + x)) / 0xffff⟩ := by
  rw [rasterizeOpOver_at_hit z (.rgba64 f) r src sp x y hx hy]
  have hset : ((Dst.rgba64 f).set (r.minX + x) (r.minY + y)
      (overOut (src.at (sp.x + x) (sp.y + y)) (z.bufU32 (y * z.sizeX + x))
        ((Dst.rgba64 f).at (r.minX + x) (r.minY + y)))).at (r.minX + x) (r.minY + y) =
      overOut (src.at (sp.x + x) (sp.y + y)) (z.bufU32 (y * z.sizeX + x))
        (f (r.minX + x) (r.minY + y)) := by
    simp [Dst.set, Dst.at]
  rw [hset]
  exact overOut_eq _ _ _ hs hd hm

/-- Claim C4: on the general source-copy path, each destination pixel
inside the draw rectangle is set, per channel, to
`src*coverage/0xffff`, and the written value is independent of the
destination's prior contents (the prior pixel is never read): drawing
onto any other destination `f'` yields the same value there. -/
theorem rasterizeOpSrc_general_formula (z : Rasterizer) (f : ℤ → ℤ → RGBA64c) (r : Rect)
    (src : Src) (sp : Point) (x y : ℕ)
    (hx : x < (r.maxX - r.minX).toNat) (hy : y < (r.maxY - r.minY).toNat)
    (hs : (src.at (sp.x + x) (sp.y + y)).r ≤ 0xffff ∧
      (src.at (sp.x + x) (sp.y + y)).g ≤ 0xffff ∧
      (src.at (sp.x + x) (sp.y + y)).b ≤ 0xffff ∧
      (src.at (sp.x + x) (sp.y + y)).a ≤ 0xffff)
    (hm : z.bufU32 (y * z.sizeX + x) ≤ 0xffff) :
    (rasterizeOpSrc z (.rgba64 f) r src sp).at (r.minX + x) (r.minY + y) =
      ⟨(src.at (sp.x + x) (sp.y + y)).r * z.bufU32 (y * z.sizeX + x) / 0xffff,
       (src.at (sp.x + x) (sp.y + y)).g * z.bufU32 (y * z.sizeX + x) / 0xffff,
       (src.at (sp.x + x) (sp.y + y)).b * z.bufU32 (y * z.sizeX + x) / 0xffff,
       (src.at (sp.x + x) (sp.y + y)).a * z.bufU32 (y * z.sizeX + x) / 0xffff⟩ ∧
    (∀ f' : ℤ → ℤ → RGBA64c,
      (rasterizeOpSrc z (.rgba64 f') r src sp).at (r.minX + x) (r.minY + y) =
        (rasterizeOpSrc z (.rgba64 f) r src sp).at (r.minX + x) (r.minY + y)) := by
  have key : ∀ g : ℤ → ℤ → RGBA64c,
      (rasterizeOpSrc z (.rgba64 g) r src sp).at (r.minX + x) (r.minY + y) =
        srcOut (src.at (sp.x + x) (sp.y + y)) (z.bufU32 (y * z.sizeX + x)) := by
    intro g
    rw [rasterizeOpSrc_at_hit z (.rgba64 g) r src sp x y hx hy]
    simp [Dst.set, Dst.at]
  constructor
  · rw [key f]
    exact srcOut_eq _ _ hs hm
  · intro f'
    rw [key f', key f]

/-- Witness for claim C3 at a concrete mask, source and destination. -/
theorem rasterizeOpOver_general_formula_witness :
    (rasterizeOpOver ⟨fun _ => 0, 1, 1, fun _ => 0x8000, 1, 1, ⟨0, 0⟩, ⟨0, 0⟩, .over⟩
        (.rgba64 fun _ _ => ⟨0x1000, 0x2000, 0x3000, 0xffff⟩) ⟨0, 0, 1, 1⟩
        (.uniform ⟨0x8000, 0x8000, 0x8000, 0xffff⟩) ⟨0, 0⟩).at
      ((⟨0, 0, 1, 1⟩ : Rect).minX + ((0 : ℕ) : ℤ)) ((⟨0, 0, 1, 1⟩ : Rect).minY + ((0 : ℕ) : ℤ)) =
      ⟨18432, 20480, 22528, 65535⟩ := by
  have h := rasterizeOpOver_general_formula
    ⟨fun _ => 0, 1, 1, fun _ => 0x8000, 1, 1, ⟨0, 0⟩, ⟨0, 0⟩, .over⟩
    (fun _ _ => ⟨0x1000, 0x2000, 0x3000, 0xffff⟩) ⟨0, 0, 1, 1⟩
    (.uniform ⟨0x8000, 0x8000, 0x8000, 0xffff⟩) ⟨0, 0⟩ 0 0
    (by decide) (by decide) (by decide) (by decide) (by decide)
  rw [h]
  decide

/-- Witness for claim C4 at a concrete mask and source, including the
independence of the written value from the prior destination. -/
theorem rasterizeOpSrc_general_formula_witness :
    (rasterizeOpSrc ⟨fun _ => 0, 1, 1, fun _ => 0x8000, 1, 1, ⟨0, 0⟩, ⟨0, 0⟩, .src⟩
        (.rgba64 fun _ _ => ⟨0x1000, 0x2000, 0x3000, 0xffff⟩) ⟨0, 0, 1, 1⟩
        (.uniform ⟨0x8000, 0x8000, 0x8000, 0xffff⟩) ⟨0, 0⟩).at
      ((⟨0, 0, 1, 1⟩ : Rect).minX + ((0 : ℕ) : ℤ)) ((⟨0, 0, 1, 1⟩ : Rect).minY + ((0 : ℕ) : ℤ)) =
      ⟨16384, 16384, 16384, 32768⟩ ∧
    (rasterizeOpSrc ⟨fun _ => 0, 1, 1, fun _ => 0x8000, 1, 1, ⟨0, 0⟩, ⟨0, 0⟩, .src⟩
        (.rgba64 fun _ _ => ⟨1, 2, 3, 4⟩) ⟨0, 0, 1, 1⟩
        (.uniform ⟨0x8000, 0x8000, 0x8000, 0xffff⟩) ⟨0, 0⟩).at
      ((⟨0, 0, 1, 1⟩ : Rect).minX + ((0 : ℕ) : ℤ)) ((⟨0, 0, 1, 1⟩ : Rect).minY + ((0 : ℕ) : ℤ)) =
      (rasterizeOpSrc ⟨fun _ => 0, 1, 1, fun _ => 0x8000, 1, 1, ⟨0, 0⟩, ⟨0, 0⟩, .src⟩
          (.rgba64 fun _ _ => ⟨0x1000, 0x2000, 0x3000, 0xffff⟩) ⟨0, 0, 1, 1⟩
          (.uniform ⟨0x8000, 0x8000, 0x8000, 0xffff⟩) ⟨0, 0⟩).at
        ((⟨0, 0, 1, 1⟩ : Rect).minX + ((0 : ℕ) : ℤ))
        ((⟨0, 0, 1, 1⟩ : Rect).minY + ((0 : ℕ) : ℤ)) := by
  have h := rasterizeOpSrc_general_formula
    ⟨fun _ => 0, 1, 1, fun _ => 0x8000, 1, 1, ⟨0, 0⟩, ⟨0, 0⟩, .src⟩
    (fun _ _ => ⟨0x1000, 0x2000, 0x3000, 0xffff⟩) ⟨0, 0, 1, 1⟩
    (.uniform ⟨0x8000, 0x8000, 0x8000, 0xffff⟩) ⟨0, 0⟩ 0 0
    (by decide) (by decide) (by decide) (by decide)
  constructor
  · rw [h.1]
    decide
  · exact h.2 (fun _ _ => ⟨1, 2, 3, 4⟩)

/-! ### Helper facts about the integrated coverage and the fast paths -/

theorem accCoverage_le (acc : ℚ) : accCoverage acc ≤ 0xffff := by
  unfold accCoverage
  have h0 : (0 : ℚ) ≤ min |acc| 1 := le_min (abs_nonneg _) zero_le_one
  have h1 : min |acc| 1 * 0xffff ≤ 0xffff := by
    have h2 : min |acc| 1 ≤ 1 := min_le_right _ _
    nlinarith
  have h3 : (min |acc| 1 * 0xffff).floor ≤ 0xffff := by
    by_contra hcon
    push_neg at hcon
    have h4 : ((0xffff + 1 : ℤ) : ℚ) ≤ min |acc| 1 * 0xffff := Rat.le_floor.mp (by omega)
    push_cast at h4
    linarith
  omega

theorem fastAccOpOver_len0 (z : Rasterizer) (pix : ℕ → ℕ) (h : z.lenF32 = 0) (i : ℕ) :
    fastAccOpOver z pix i = pix i := by
  simp [fastAccOpOver, h]

theorem fastAccOpSrc_len0 (z : Rasterizer) (pix : ℕ → ℕ) (h : z.lenF32 = 0) (i : ℕ) :
    fastAccOpSrc z pix i = pix i := by
  simp [fastAccOpSrc, h]

theorem alpha_at_congr (bo : Rect) (pix pix' : ℕ → ℕ) (h : ∀ i, pix i = pix' i) (X Y : ℤ) :
    (Dst.alpha bo pix).at X Y = (Dst.alpha bo pix').at X Y := by
  simp only [Dst.at]
  split_ifs with hin
  · rw [h (alphaOffset bo X Y)]
  · rfl

/-- Over a zero destination pixel the source-over blend reduces to the
source-copy blend. -/
theorem overOut_zero (s : RGBA64c) (ma : ℕ) : overOut s ma ⟨0, 0, 0, 0⟩ = srcOut s ma := by
  simp [overOut, srcOut]

/-- The byte written by the fast source-over accumulation coincides with
the byte stored by the general source-over blend of an opaque source
over the same 16-bit alpha value. -/
theorem overByte_eq (d am : ℕ) (hd : d ≤ 0xffff) (ham : am ≤ 0xffff) :
    (d * (0xffff - am) + 0xffff * am) / 0xffff % 0x10000 / 0x100 =
      (d * (0xffff - am) / 0xffff + am) / 0x100 := by
  have h1 : (d * (0xffff - am) + 0xffff * am) / 0xffff = d * (0xffff - am) / 0xffff + am := by
    rw [Nat.mul_comm 0xffff am]
    exact Nat.add_mul_div_right _ _ (by norm_num)
  have h2 : d * (0xffff - am) / 0xffff + am ≤ 0xffff := by
    have h3 : d * (0xffff - am) / 0xffff ≤ 0xffff - am := by
      calc d * (0xffff - am) / 0xffff ≤ 0xffff * (0xffff - am) / 0xffff :=
            Nat.div_le_div_right (Nat.mul_le_mul_right _ hd)
      _ = 0xffff - am := Nat.mul_div_cancel_left _ (by norm_num)
    omega
  rw [h1, Nat.mod_eq_of_lt (by omega)]

/-! ### Draw-level claims C8 and C5 -/

/-- Claim C8: a draw rectangle of zero area makes `Draw` a no-op on the
destination (no pixel changes, no failure), for any destination, source
and source offset, given the buffer-length invariant maintained by
`NewRasterizer` and `Reset`. -/
theorem Draw_zero_area_noop (z : Rasterizer) (dst : Dst) (r : Rect) (src : Src) (sp : Point)
    (hlen : z.lenF32 = z.sizeX * z.sizeY)
    (hz : r.maxX ≤ r.minX ∨ r.maxY ≤ r.minY) (X Y : ℤ) :
    (z.Draw dst r src sp).2.at X Y = dst.at X Y := by
  have hout : ¬ inRect r X Y := by
    intro hcon
    obtain ⟨a1, a2, a3, a4⟩ := hcon
    omega
  have hgen : (drawGeneral z dst r src sp).2.at X Y = dst.at X Y := by
    simp only [drawGeneral]
    by_cases hop : z.DrawOp = Op.over
    · rw [if_pos hop]
      exact rasterizeOpOver_at_out _ _ _ _ _ _ _ hout
    · rw [if_neg hop]
      exact rasterizeOpSrc_at_out _ _ _ _ _ _ _ hout
  cases src with
  | img f => exact hgen
  | uniform c =>
      cases dst with
      | rgba64 f => exact hgen
      | alpha bo pix =>
          by_cases hca : c.a = 0xffff
          · simp only [Rasterizer.Draw]
            rw [if_pos hca]
            have hlen0 : r = bo ∧ r = z.Bounds → z.lenF32 = 0 := by
              intro hbr
              obtain ⟨hb1, hb2⟩ := hbr
              have e : r = (⟨0, 0, (z.sizeX : ℤ), (z.sizeY : ℤ)⟩ : Rect) := hb2
              rw [e] at hz
              simp only at hz
              rcases hz with h0 | h0
              · have hx0 : z.sizeX = 0 := by omega
                rw [hlen, hx0, Nat.zero_mul]
              · have hy0 : z.sizeY = 0 := by omega
                rw [hlen, hy0, Nat.mul_zero]
            by_cases hop : z.DrawOp = Op.over
            · rw [if_pos hop]
              show (rasterizeDstAlphaSrcOpaqueOpOver z bo pix r).at X Y =
                (Dst.alpha bo pix).at X Y
              unfold rasterizeDstAlphaSrcOpaqueOpOver
              by_cases hbr : r = bo ∧ r = z.Bounds
              · rw [if_pos hbr]
                exact alpha_at_congr bo _ pix
                  (fun i => fastAccOpOver_len0 z pix (hlen0 hbr) i) X Y
              · rw [if_neg hbr]
            · rw [if_neg hop]
              show (rasterizeDstAlphaSrcOpaqueOpSrc z bo pix r).at X Y =
                (Dst.alpha bo pix).at X Y
              unfold rasterizeDstAlphaSrcOpaqueOpSrc
              by_cases hbr : r = bo ∧ r = z.Bounds
              · rw [if_pos hbr]
                exact alpha_at_congr bo _ pix
                  (fun i => fastAccOpSrc_len0 z pix (hlen0 hbr) i) X Y
              · rw [if_neg hbr]
          · simp only [Rasterizer.Draw]
            rw [if_neg hca]
            exact hgen

/-- Witness for claim C8 on a concrete zero-area rectangle. -/
theorem Draw_zero_area_noop_witness :
    ((NewRasterizer 2 2).Draw (.alpha ⟨0, 0, 2, 2⟩ fun _ => 7) ⟨0, 0, 0, 2⟩
        (.uniform ⟨0xffff, 0xffff, 0xffff, 0xffff⟩) ⟨0, 0⟩).2.at 0 0 =
      (Dst.alpha ⟨0, 0, 2, 2⟩ fun _ => 7).at 0 0 :=
  Draw_zero_area_noop (NewRasterizer 2 2) (.alpha ⟨0, 0, 2, 2⟩ fun _ => 7) ⟨0, 0, 0, 2⟩
    (.uniform ⟨0xffff, 0xffff, 0xffff, 0xffff⟩) ⟨0, 0⟩ rfl (Or.inl (by decide)) 0 0

/-- Claim C5: for a source that is fully opaque at every sampled point
and a destination whose pixels all start at zero, drawing with the
source-over operator and drawing with the source-copy operator produce
identical destination contents. -/
theorem Draw_over_src_equiv (z : Rasterizer) (dst : Dst) (r : Rect) (src : Src) (sp : Point)
    (hzero : ∀ X Y : ℤ, dst.at X Y = ⟨0, 0, 0, 0⟩)
    (hfull : ∀ x y : ℕ, x < (r.maxX - r.minX).toNat → y < (r.maxY - r.minY).toNat →
      (src.at (sp.x + x) (sp.y + y)).a = 0xffff)
    (X Y : ℤ) :
    (({ z with DrawOp := Op.over }).Draw dst r src sp).2.at X Y =
      (({ z with DrawOp := Op.src }).Draw dst r src sp).2.at X Y := by
  have hgen : (drawGeneral { z with DrawOp := Op.over } dst r src sp).2.at X Y =
      (drawGeneral { z with DrawOp := Op.src } dst r src sp).2.at X Y := by
    simp only [drawGeneral]
    rw [if_true, if_neg (by decide)]
    by_cases hin : inRect r X Y
    · obtain ⟨i1, i2, i3, i4⟩ := hin
      obtain ⟨x, y, hx, hy, hX, hY⟩ :
          ∃ x y : ℕ, x < (r.maxX - r.minX).toNat ∧ y < (r.maxY - r.minY).toNat ∧
            X = r.minX + (x : ℤ) ∧ Y = r.minY + (y : ℤ) :=
        ⟨(X - r.minX).toNat, (Y - r.minY).toNat, by omega, by omega, by omega, by omega⟩
      subst hX
      subst hY
      rw [rasterizeOpOver_at_hit _ dst r src sp x y hx hy,
        rasterizeOpSrc_at_hit _ dst r src sp x y hx hy]
      rw [hzero (r.minX + (x : ℤ)) (r.minY + (y : ℤ))]
      rw [overOut_zero]
    · rw [rasterizeOpOver_at_out _ _ _ _ _ _ _ hin, rasterizeOpSrc_at_out _ _ _ _ _ _ _ hin]
  cases src with
  | img f => exact hgen
  | uniform c =>
      cases dst with
      | rgba64 f => exact hgen
      | alpha bo pix =>
          by_cases hca : c.a = 0xffff
          · simp only [Rasterizer.Draw]
            rw [if_pos hca, if_pos hca, if_true, if_neg (by decide)]
            show (rasterizeDstAlphaSrcOpaqueOpOver { z with DrawOp := Op.over } bo pix r).at X Y =
              (rasterizeDstAlphaSrcOpaqueOpSrc { z with DrawOp := Op.src } bo pix r).at X Y
            unfold rasterizeDstAlphaSrcOpaqueOpOver rasterizeDstAlphaSrcOpaqueOpSrc
            simp only [Rasterizer.Bounds]
            by_cases hbr : r = bo ∧ r = (⟨0, 0, (z.sizeX : ℤ), (z.sizeY : ℤ)⟩ : Rect)
            · rw [if_pos hbr, if_pos hbr]
              simp only [Dst.at]
              by_cases hin : inRect bo X Y
              · rw [if_pos hin, if_pos hin]
                have hz0 := hzero X Y
                simp only [Dst.at, if_pos hin] at hz0
                have hv : pix (alphaOffset bo X Y) % 0x100 = 0 := by
                  have ha := congrArg RGBA64c.a hz0
                  simp only at ha
                  omega
                simp only [fastAccOpOver, fastAccOpSrc]
                by_cases hi : alphaOffset bo X Y < z.lenF32
                · rw [if_pos hi, if_pos hi, hv]
                  norm_num
                · rw [if_neg hi, if_neg hi]
              · rw [if_neg hin, if_neg hin]
            · rw [if_neg hbr, if_neg hbr]
          · simp only [Rasterizer.Draw]
            rw [if_neg hca, if_neg hca]
            exact hgen

/-! ### Fast path versus general path (claim C2) -/

theorem fastGeneralOverByte (d am : ℕ) (hd : d ≤ 0xffff) (ham : am ≤ 0xffff) :
    (d * (0xffff - 0xffff * am / 0xffff) + 0xffff * am) / 0xffff % 0x10000 % 0x10000 / 0x100 %
        0x100 =
      (d * (0xffff - am) / 0xffff + am) / 0x100 % 0x100 := by
  have hmm : 0xffff * am / 0xffff = am := Nat.mul_div_cancel_left am (by norm_num)
  rw [hmm]
  have h1 := overByte_eq d am hd ham
  generalize (d * (0xffff - am) + 0xffff * am) / 0xffff = A at h1
  generalize d * (0xffff - am) / 0xffff + am = B at h1
  omega

theorem fastGeneralSrcByte (am : ℕ) (ham : am ≤ 0xffff) :
    0xffff * am / 0xffff % 0x10000 % 0x10000 / 0x100 % 0x100 = am / 0x100 % 0x100 := by
  have hmm : 0xffff * am / 0xffff = am := Nat.mul_div_cancel_left am (by norm_num)
  rw [hmm]
  omega

theorem alpha_at_in (bo : Rect) (pix : ℕ → ℕ) (x y : ℤ) (hin : inRect bo x y) :
    (Dst.alpha bo pix).at x y =
      ⟨pix (alphaOffset bo x y) % 0x100 * 0x101, pix (alphaOffset bo x y) % 0x100 * 0x101,
       pix (alphaOffset bo x y) % 0x100 * 0x101, pix (alphaOffset bo x y) % 0x100 * 0x101⟩ := by
  simp only [Dst.at]
  rw [if_pos hin]

theorem alpha_at_set_self (bo : Rect) (pix : ℕ → ℕ) (x y : ℤ) (c : RGBA64c)
    (hin : inRect bo x y) :
    ((Dst.alpha bo pix).set x y c).at x y =
      ⟨c.a % 0x10000 / 0x100 % 0x100 * 0x101, c.a % 0x10000 / 0x100 % 0x100 * 0x101,
       c.a % 0x10000 / 0x100 % 0x100 * 0x101, c.a % 0x10000 / 0x100 % 0x100 * 0x101⟩ := by
  simp only [Dst.set]
  rw [if_pos hin]
  simp only [Dst.at]
  rw [if_pos hin]
  simp

/-- Claim C2 (amended): for an opaque uniform source, an `*image.Alpha`
destination whose bounds equal the rasterizer's bounds, and a draw
rectangle equal to those same bounds, the fast path taken by `Draw`
produces, pixel for pixel, exactly the destination that the general
mask-integration and per-pixel compositing path produces for the same
arguments, for both draw operators (the rasterizer's buffer-length
invariant `lenF32 = sizeX * sizeY` is maintained by `NewRasterizer` and
`Reset`). -/
theorem Draw_fast_path_matches_general (z : Rasterizer) (pix : ℕ → ℕ) (c : RGBA64c)
    (sp : Point) (hca : c.a = 0xffff) (hlen : z.lenF32 = z.sizeX * z.sizeY) (X Y : ℤ) :
    (z.Draw (.alpha z.Bounds pix) z.Bounds (.uniform c) sp).2.at X Y =
      (drawGeneral z (.alpha z.Bounds pix) z.Bounds (.uniform c) sp).2.at X Y := by
  have hminX : z.Bounds.minX = 0 := rfl
  have hminY : z.Bounds.minY = 0 := rfl
  have hmaxX : z.Bounds.maxX = (z.sizeX : ℤ) := rfl
  have hmaxY : z.Bounds.maxY = (z.sizeY : ℤ) := rfl
  simp only [Rasterizer.Draw]
  rw [if_pos hca]
  simp only [drawGeneral]
  by_cases hop : z.DrawOp = Op.over
  · rw [if_pos hop, if_pos hop]
    unfold rasterizeDstAlphaSrcOpaqueOpOver
    rw [if_pos ⟨rfl, rfl⟩]
    by_cases hin : inRect z.Bounds X Y
    · obtain ⟨i1, i2, i3, i4⟩ := hin
      obtain ⟨x, y, hx, hy, hX, hY⟩ :
          ∃ x y : ℕ, x < (z.Bounds.maxX - z.Bounds.minX).toNat ∧
            y < (z.Bounds.maxY - z.Bounds.minY).toNat ∧
            X = z.Bounds.minX + (x : ℤ) ∧ Y = z.Bounds.minY + (y : ℤ) :=
        ⟨(X - z.Bounds.minX).toNat, (Y - z.Bounds.minY).toNat, by omega, by omega, by omega,
          by omega⟩
      subst hX
      subst hY
      have hin' : inRect z.Bounds (z.Bounds.minX + (x : ℤ)) (z.Bounds.minY + (y : ℤ)) :=
        ⟨by omega, by omega, by omega, by omega⟩
      have hxw : x < z.sizeX := by
        rw [hmaxX, hminX] at hx
        omega
      have hyh : y < z.sizeY := by
        rw [hmaxY, hminY] at hy
        omega
      have hoffeq : alphaOffset z.Bounds (z.Bounds.minX + (x : ℤ)) (z.Bounds.minY + (y : ℤ)) =
          y * z.sizeX + x := by
        unfold alphaOffset
        rw [hminX, hminY, hmaxX]
        simp
      have hofflen : y * z.sizeX + x < z.lenF32 := by
        rw [hlen]
        calc y * z.sizeX + x < y * z.sizeX + z.sizeX := Nat.add_lt_add_left hxw _
        _ = (y + 1) * z.sizeX := by ring
        _ ≤ z.sizeY * z.sizeX := Nat.mul_le_mul_right _ hyh
        _ = z.sizeX * z.sizeY := Nat.mul_comm _ _
      rw [rasterizeOpOver_at_hit _ _ _ _ _ x y hx hy]
      rw [alpha_at_set_self z.Bounds pix _ _ _ hin']
      rw [alpha_at_in z.Bounds (fastAccOpOver z pix) _ _ hin']
      rw [alpha_at_in z.Bounds pix _ _ hin']
      rw [hoffeq]
      simp only [fastAccOpOver, accumulateMask, Src.at]
      rw [if_pos hofflen, if_pos hofflen]
      simp only [overOut, hca]
      have hd : pix (y * z.sizeX + x) % 0x100 * 0x101 ≤ 0xffff := by
        have h0 : pix (y * z.sizeX + x) % 0x100 < 0x100 := Nat.mod_lt _ (by norm_num)
        omega
      have ham := accCoverage_le (rowSum z.bufF32 z.sizeX (y * z.sizeX + x))
      have hbyte := fastGeneralOverByte (pix (y * z.sizeX + x) % 0x100 * 0x101)
        (accCoverage (rowSum z.bufF32 z.sizeX (y * z.sizeX + x))) hd ham
      simp only [RGBA64c.mk.injEq]
      refine ⟨?_, ?_, ?_, ?_⟩ <;>
        · rw [← hbyte]
    · rw [rasterizeOpOver_at_out _ _ _ _ _ _ _ hin]
      simp only [Dst.at]
      rw [if_neg hin, if_neg hin]
  · rw [if_neg hop, if_neg hop]
    unfold rasterizeDstAlphaSrcOpaqueOpSrc
    rw [if_pos ⟨rfl, rfl⟩]
    by_cases hin : inRect z.Bounds X Y
    · obtain ⟨i1, i2, i3, i4⟩ := hin
      obtain ⟨x, y, hx, hy, hX, hY⟩ :
          ∃ x y : ℕ, x < (z.Bounds.maxX - z.Bounds.minX).toNat ∧
            y < (z.Bounds.maxY - z.Bounds.minY).toNat ∧
            X = z.Bounds.minX + (x : ℤ) ∧ Y = z.Bounds.minY + (y : ℤ) :=
        ⟨(X - z.Bounds.minX).toNat, (Y - z.Bounds.minY).toNat, by omega, by omega, by omega,
          by omega⟩
      subst hX
      subst hY
      have hin' : inRect z.Bounds (z.Bounds.minX + (x : ℤ)) (z.Bounds.minY + (y : ℤ)) :=
        ⟨by omega, by omega, by omega, by omega⟩
      have hxw : x < z.sizeX := by
        rw [hmaxX, hminX] at hx
        omega
      have hyh : y < z.sizeY := by
        rw [hmaxY, hminY] at hy
        omega
      have hoffeq : alphaOffset z.Bounds (z.Bounds.minX + (x : ℤ)) (z.Bounds.minY + (y : ℤ)) =
          y * z.sizeX + x := by
        unfold alphaOffset
        rw [hminX, hminY, hmaxX]
        simp
      have hofflen : y * z.sizeX + x < z.lenF32 := by
        rw [hlen]
        calc y * z.sizeX + x < y * z.sizeX + z.sizeX := Nat.add_lt_add_left hxw _
        _ = (y + 1) * z.sizeX := by ring
        _ ≤ z.sizeY * z.sizeX := Nat.mul_le_mul_right _ hyh
        _ = z.sizeX * z.sizeY := Nat.mul_comm _ _
      rw [rasterizeOpSrc_at_hit _ _ _ _ _ x y hx hy]
      rw [alpha_at_set_self z.Bounds pix _ _ _ hin']
      rw [alpha_at_in z.Bounds (fastAccOpSrc z pix) _ _ hin']
      rw [hoffeq]
      simp only [fastAccOpSrc, accumulateMask, Src.at]
      rw [if_pos hofflen, if_pos hofflen]
      simp only [srcOut, hca]
      have ham := accCoverage_le (rowSum z.bufF32 z.sizeX (y * z.sizeX + x))
      have hbyte := fastGeneralSrcByte
        (accCoverage (rowSum z.bufF32 z.sizeX (y * z.sizeX + x))) ham
      simp only [RGBA64c.mk.injEq]
      refine ⟨?_, ?_, ?_, ?_⟩ <;>
        · rw [← hbyte]
    · rw [rasterizeOpSrc_at_out _ _ _ _ _ _ _ hin]
      simp only [Dst.at]
      rw [if_neg hin, if_neg hin]

/-- Witness for claim C5 at a concrete rasterizer, source and zeroed
destination. -/
theorem Draw_over_src_equiv_witness :
    (({ NewRasterizer 1 1 with DrawOp := Op.over }).Draw (.rgba64 fun _ _ => ⟨0, 0, 0, 0⟩)
        ⟨0, 0, 1, 1⟩ (.uniform ⟨0xffff, 0xffff, 0xffff, 0xffff⟩) ⟨0, 0⟩).2.at 0 0 =
      (({ NewRasterizer 1 1 with DrawOp := Op.src }).Draw (.rgba64 fun _ _ => ⟨0, 0, 0, 0⟩)
        ⟨0, 0, 1, 1⟩ (.uniform ⟨0xffff, 0xffff, 0xffff, 0xffff⟩) ⟨0, 0⟩).2.at 0 0 :=
  Draw_over_src_equiv (NewRasterizer 1 1) (.rgba64 fun _ _ => ⟨0, 0, 0, 0⟩) ⟨0, 0, 1, 1⟩
    (.uniform ⟨0xffff, 0xffff, 0xffff, 0xffff⟩) ⟨0, 0⟩ (fun _ _ => rfl) (fun _ _ _ _ => rfl) 0 0

/-- Witness for the amended claim C2 at a concrete rasterizer. -/
theorem Draw_fast_path_matches_general_witness :
    ((NewRasterizer 1 1).Draw (.alpha (NewRasterizer 1 1).Bounds fun _ => 0)
        (NewRasterizer 1 1).Bounds (.uniform ⟨0xffff, 0xffff, 0xffff, 0xffff⟩) ⟨0, 0⟩).2.at 0 0 =
      (drawGeneral (NewRasterizer 1 1) (.alpha (NewRasterizer 1 1).Bounds fun _ => 0)
        (NewRasterizer 1 1).Bounds (.uniform ⟨0xffff, 0xffff, 0xffff, 0xffff⟩) ⟨0, 0⟩).2.at 0 0 :=
  Draw_fast_path_matches_general (NewRasterizer 1 1) (fun _ => 0)
    ⟨0xffff, 0xffff, 0xffff, 0xffff⟩ ⟨0, 0⟩ rfl rfl 0 0

/-- Counterexample to claim C2 as stated: with a 2×1 rasterizer whose
first coverage cell holds a full signed area, an opaque white uniform
source, an alpha destination with the rasterizer's bounds, and a draw
rectangle covering only the left pixel (a rectangle different from the
bounds), the fast path leaves the destination untouched while the
general path writes full alpha to the left pixel. -/
theorem Draw_fast_path_rect_cex :
    (Rasterizer.Draw
        ⟨(fun i => if i = 0 then (1 : ℚ) else 0), 2, 2, (fun _ => 0), 2, 1, ⟨0, 0⟩, ⟨0, 0⟩,
          .over⟩
        (.alpha ⟨0, 0, 2, 1⟩ fun _ => 0) ⟨0, 0, 1, 1⟩
        (.uniform ⟨0xffff, 0xffff, 0xffff, 0xffff⟩) ⟨0, 0⟩).2.at 0 0 ≠
      (drawGeneral
        ⟨(fun i => if i = 0 then (1 : ℚ) else 0), 2, 2, (fun _ => 0), 2, 1, ⟨0, 0⟩, ⟨0, 0⟩,
          .over⟩
        (.alpha ⟨0, 0, 2, 1⟩ fun _ => 0) ⟨0, 0, 1, 1⟩
        (.uniform ⟨0xffff, 0xffff, 0xffff, 0xffff⟩) ⟨0, 0⟩).2.at 0 0 := by
  have hfast : (Rasterizer.Draw
      ⟨(fun i => if i = 0 then (1 : ℚ) else 0), 2, 2, (fun _ => 0), 2, 1, ⟨0, 0⟩, ⟨0, 0⟩,
        .over⟩
      (.alpha ⟨0, 0, 2, 1⟩ fun _ => 0) ⟨0, 0, 1, 1⟩
      (.uniform ⟨0xffff, 0xffff, 0xffff, 0xffff⟩) ⟨0, 0⟩).2.at 0 0 = ⟨0, 0, 0, 0⟩ := by
    decide
  have hrow : rowSum (fun i => if i = 0 then (1 : ℚ) else 0) 2 0 = 1 := by
    simp [rowSum, sumTo]
  have hacc : accCoverage 1 = 0xffff := by
    unfold accCoverage
    rw [abs_one, min_self, one_mul]
    norm_num [Rat.floor]
    decide
  have hgen : (drawGeneral
      ⟨(fun i => if i = 0 then (1 : ℚ) else 0), 2, 2, (fun _ => 0), 2, 1, ⟨0, 0⟩, ⟨0, 0⟩,
        .over⟩
      (.alpha ⟨0, 0, 2, 1⟩ fun _ => 0) ⟨0, 0, 1, 1⟩
      (.uniform ⟨0xffff, 0xffff, 0xffff, 0xffff⟩) ⟨0, 0⟩).2.at
        ((⟨0, 0, 1, 1⟩ : Rect).minX + ((0 : ℕ) : ℤ))
        ((⟨0, 0, 1, 1⟩ : Rect).minY + ((0 : ℕ) : ℤ)) = ⟨0xffff, 0xffff, 0xffff, 0xffff⟩ := by
    simp only [drawGeneral]
    rw [if_pos (by decide)]
    rw [rasterizeOpOver_at_hit _ _ _ _ _ 0 0 (by decide) (by decide)]
    rw [alpha_at_set_self _ _ _ _ _ (by decide)]
    rw [alpha_at_in _ _ _ _ (by decide)]
    simp only [accumulateMask, Src.at]
    norm_num
    rw [hrow, hacc]
    decide
  rw [show ((⟨0, 0, 1, 1⟩ : Rect).minX + ((0 : ℕ) : ℤ)) = (0 : ℤ) by decide] at hgen
  rw [hfast, hgen]
  decide
